import Mathlib

/-!
Verification of the lsm-kv-py LSM key-value store.

This file shallowly embeds the Python sources under `src/lsmkv/` into Lean:
pure data (entries, WAL records, sparse index) becomes Lean structures, the
stateful components (memtable, memtable manager, SSTable manager, store
facade) become explicit state-passing functions, and fallible operations
return `Except`.  Python `dict`s are modelled as insertion-ordered
association lists (Python ≥ 3.7 preserves insertion order, and updating an
existing key keeps its position), Python `list.sort`/`sorted` is modelled
by `List.insertionSort` (keys are unique at every sort site, so any sort
by key coincides with Python's stable sort), and Python string comparison (code-point
lexicographic) is modelled by an executable comparator `keyLt` proved
equivalent to Lean's `String` order below.

External libraries used by the sources are modelled by their documented
behaviour: `bisect.bisect_right`/`bisect_left` (documented result on a
sorted list), the `json` module (`json.loads (json.dumps x)` round-trips
JSON-representable values, modelled as an AST), and `pybloomfiltermmap3`
(`might_contain` may yield false positives but never false negatives,
modelled as a Boolean function parameter constrained accordingly).
-/

namespace LSMKV

/-! ## Python string comparison

Python compares strings lexicographically by code point.  `String.ltb`
(Lean's built-in comparator) does not reduce in the kernel, so we define a
structural comparator over the character list and prove it equivalent to
the `String` linear order, letting concrete inputs be settled by `decide`
while reusing Mathlib's order lemmas. -/

def strLtB : List Char → List Char → Bool
  | [], [] => false
  | [], _ :: _ => true
  | _ :: _, [] => false
  | a :: as, b :: bs =>
    if a < b then true
    else if b < a then false
    else strLtB as bs

/-- Model of Python `key1 < key2` on strings. -/
def keyLt (s t : String) : Bool := strLtB s.data t.data

/-- Model of Python `key1 <= key2` on strings. -/
def keyLe (s t : String) : Bool := !(strLtB t.data s.data)

theorem strLtB_iff_lex : ∀ (as bs : List Char),
    strLtB as bs = true ↔ List.Lex (· < ·) as bs := by
  intro as
  induction as with
  | nil =>
    intro bs
    cases bs with
    | nil =>
      simp only [strLtB, Bool.false_eq_true, false_iff]
      intro h; cases h
    | cons b bs =>
      simp only [strLtB, true_iff]
      exact List.Lex.nil
  | cons a as ih =>
    intro bs
    cases bs with
    | nil =>
      simp only [strLtB, Bool.false_eq_true, false_iff]
      intro h; cases h
    | cons b bs =>
      simp only [strLtB]
      by_cases hab : a < b
      · simp only [hab, if_true, true_iff]
        exact List.Lex.rel hab
      · by_cases hba : b < a
        · simp only [hab, hba, if_true, if_false, Bool.false_eq_true, false_iff]
          intro h
          cases h with
          | cons h' => exact absurd hba (lt_irrefl a)
          | rel h' => exact hab h'
        · have hc : a = b := le_antisymm (not_lt.mp hba) (not_lt.mp hab)
          subst hc
          simp only [hab, if_false, ih]
          constructor
          · intro h; exact List.Lex.cons h
          · intro h
            cases h with
            | cons h' => exact h'
            | rel h' => exact absurd h' hab

theorem keyLt_iff (s t : String) : keyLt s t = true ↔ s < t := by
  rw [keyLt, strLtB_iff_lex, String.lt_iff_toList_lt]
  exact Iff.rfl

theorem keyLe_iff (s t : String) : keyLe s t = true ↔ s ≤ t := by
  have h : keyLe s t = !(keyLt t s) := rfl
  rw [h, Bool.not_eq_true']
  constructor
  · intro hf
    by_contra hle
    exact absurd ((keyLt_iff t s).mpr (not_le.mp hle)) (by simp [hf])
  · intro hle
    cases hk : keyLt t s
    · rfl
    · exact absurd ((keyLt_iff t s).mp hk) (not_lt.mpr hle)

theorem keyLt_eq_decide (s t : String) : keyLt s t = decide (s < t) := by
  by_cases h : s < t
  · rw [decide_eq_true h, (keyLt_iff s t).mpr h]
  · rw [decide_eq_false h]
    cases hb : keyLt s t with
    | false => rfl
    | true => exact absurd ((keyLt_iff s t).mp hb) h

theorem keyLe_eq_decide (s t : String) : keyLe s t = decide (s ≤ t) := by
  by_cases h : s ≤ t
  · rw [decide_eq_true h, (keyLe_iff s t).mpr h]
  · rw [decide_eq_false h]
    cases hb : keyLe s t with
    | false => rfl
    | true => exact absurd ((keyLe_iff s t).mp hb) h

/-! ## Core data types (src/lsmkv/core/dto.py) -/

/-- Types of operations in the WAL (`OperationType`). -/
inductive OperationType where
  | PUT
  | DELETE
deriving DecidableEq, Repr

/-- Textual tag of an operation (`OperationType.value` in Python). -/
def OperationType.value : OperationType → String
  | .PUT => "PUT"
  | .DELETE => "DELETE"

/-- Inverse lookup `OperationType(tag)`: fails on an unknown tag. -/
def OperationType.ofValue : String → Option OperationType
  | "PUT" => some .PUT
  | "DELETE" => some .DELETE
  | _ => none

/-- A key-value entry (`Entry`): `value` is `none` for tombstones. -/
structure Entry where
  key : String
  value : Option String
  timestamp : Int
  is_deleted : Bool
deriving DecidableEq, Repr

/-- A record in the write-ahead log (`WALRecord`). -/
structure WALRecord where
  operation : OperationType
  key : String
  value : Option String
  timestamp : Int
deriving DecidableEq, Repr

/-- Result of a GET operation (`GetResult`). -/
structure GetResult where
  key : String
  value : Option String
  found : Bool
deriving DecidableEq, Repr

/-- Metadata of a written SSTable (`SSTableMetadata`; the `dirname` field is
determined by `sstable_id` and omitted). -/
structure SSTableMetadata where
  sstable_id : Nat
  num_entries : Nat
  min_key : String
  max_key : String
deriving DecidableEq, Repr

/-! ## JSON model for WALRecord round-trip (claim C10)

`WALRecord.serialize` builds a Python dict and passes it to `json.dumps`
(then appends a newline); `deserialize` strips the line and feeds it to
`json.loads` before reading the four fields.  The `json` module round-trips
JSON-representable values (`loads (dumps x) == x`), and `strip` removes
exactly the appended newline, so the textual leg is the identity on the
AST; we embed both directions at the AST level. -/

inductive Json where
  | str (s : String)
  | num (n : Int)
  | bool (b : Bool)
  | null
  | obj (fields : List (String × Json))

/-- First field with the given name (`record["name"]`; `none` models `KeyError`). -/
def Json.lookup (name : String) : List (String × Json) → Option Json
  | [] => none
  | (k, v) :: rest => if k = name then some v else Json.lookup name rest

/-- Python `value` of `Optional[str]` as JSON: `None` serialises to `null`. -/
def optStrToJson : Option String → Json
  | none => Json.null
  | some s => Json.str s

/-- Read back a string-or-null JSON value. -/
def optStrOfJson : Json → Option (Option String)
  | Json.null => some none
  | Json.str s => some (some s)
  | _ => none

/-- Model of `WALRecord.serialize`: the JSON object written on one line. -/
def WALRecord.serialize (r : WALRecord) : Json :=
  Json.obj [("op", Json.str r.operation.value),
            ("key", Json.str r.key),
            ("value", optStrToJson r.value),
            ("ts", Json.num r.timestamp)]

/-- Model of `WALRecord.deserialize`: read the four fields back; any
missing field, wrong type, or unknown operation tag fails (Python raises). -/
def WALRecord.deserialize : Json → Option WALRecord
  | Json.obj fields => do
    let Json.str opTag ← Json.lookup "op" fields | none
    let op ← OperationType.ofValue opTag
    let Json.str key ← Json.lookup "key" fields | none
    let v ← Json.lookup "value" fields
    let value ← optStrOfJson v
    let Json.num ts ← Json.lookup "ts" fields | none
    pure { operation := op, key := key, value := value, timestamp := ts }
  | _ => none

/-! ## Monotonic timestamps (claim C9, src/lsmkv/core/kvstore.py `_get_timestamp`) -/

/-- Model of `LSMKVStore._get_timestamp`: `now` is the wall-clock reading
`int(time.time() * 1000000)`; the stored `_last_timestamp` clamps the
result to be strictly increasing.  Returns (returned value, new state). -/
def getTimestamp (lastTimestamp : Int) (now : Int) : Int × Int :=
  let now' := if now ≤ lastTimestamp then lastTimestamp + 1 else now
  (now', now')

/-- All values returned by a sequence of `_get_timestamp` calls with the
given wall-clock readings, starting from `last`. -/
def timestampRun (last : Int) : List Int → List Int
  | [] => []
  | now :: rest =>
    let (ret, last') := getTimestamp last now
    ret :: timestampRun last' rest

theorem getTimestamp_gt (last now : Int) : last < (getTimestamp last now).1 := by
  simp only [getTimestamp]
  split
  · exact lt_add_one last
  · exact lt_of_not_le (by assumption)

theorem getTimestamp_state (last now : Int) :
    (getTimestamp last now).2 = (getTimestamp last now).1 := rfl

theorem timestampRun_all_gt (readings : List Int) :
    ∀ last, ∀ t ∈ timestampRun last readings, last < t := by
  induction readings with
  | nil => intro last t ht; simp [timestampRun] at ht
  | cons now rest ih =>
    intro last t ht
    simp only [timestampRun, List.mem_cons] at ht
    rcases ht with h | h
    · rw [h]; exact getTimestamp_gt last now
    · exact lt_trans (getTimestamp_gt last now)
        (getTimestamp_state last now ▸ ih (getTimestamp last now).2 t h)

/-- Claim C9: for every initial `_last_timestamp` and every sequence of
wall-clock readings (repeated and backward-moving readings included), the
values returned by successive `_get_timestamp` calls are strictly
increasing: each call returns a value strictly greater than every value
returned by any earlier call. -/
theorem timestamps_strictly_monotonic (last : Int) (readings : List Int) :
    List.Pairwise (· < ·) (timestampRun last readings) := by
  induction readings generalizing last with
  | nil => exact List.Pairwise.nil
  | cons now rest ih =>
    simp only [timestampRun]
    refine List.Pairwise.cons ?_ (ih _)
    intro t ht
    exact timestampRun_all_gt rest (getTimestamp last now).1 t
      (by rw [← getTimestamp_state last now]; exact ht)

theorem deserialize_serialize_put (k : String) (v : Option String) (ts : Int) :
    WALRecord.deserialize (WALRecord.serialize ⟨.PUT, k, v, ts⟩) =
      some ⟨.PUT, k, v, ts⟩ := by
  cases v <;> rfl

theorem deserialize_serialize_delete (k : String) (v : Option String) (ts : Int) :
    WALRecord.deserialize (WALRecord.serialize ⟨.DELETE, k, v, ts⟩) =
      some ⟨.DELETE, k, v, ts⟩ := by
  cases v <;> rfl

/-- Claim C10: for every WAL record with operation PUT or DELETE, a string
key, a string-or-null value and an integer timestamp, deserialising the
serialised record returns a record whose operation, key, value and
timestamp all equal those of the original. -/
theorem walrecord_roundtrip (r : WALRecord) :
    WALRecord.deserialize (WALRecord.serialize r) = some r := by
  obtain ⟨op, k, v, ts⟩ := r
  cases op
  · exact deserialize_serialize_put k v ts
  · exact deserialize_serialize_delete k v ts

/-! ## Insertion-ordered dictionaries

Python `dict`s preserve insertion order; assigning to an existing key
updates the value in place, assigning to a fresh key appends.  We model
them as association lists with exactly those operations. -/

/-- Python `d[k]` / `d.get(k)`: the value stored under `k`, if any. -/
def alLookup {α : Type} (k : String) : List (String × α) → Option α
  | [] => none
  | (k', v) :: rest => if k' = k then some v else alLookup k rest

/-- Python `d[k] = v`: update in place when present, append when fresh. -/
def alStore {α : Type} (k : String) (v : α) : List (String × α) → List (String × α)
  | [] => [(k, v)]
  | (k', v') :: rest =>
    if k' = k then (k', v) :: rest else (k', v') :: alStore k v rest

theorem alLookup_alStore_self {α : Type} (k : String) (v : α) :
    ∀ l, alLookup k (alStore k v l) = some v := by
  intro l
  induction l with
  | nil => simp [alStore, alLookup]
  | cons p rest ih =>
    obtain ⟨k', v'⟩ := p
    by_cases h : k' = k
    · simp [alStore, alLookup, h]
    · simp [alStore, alLookup, h, ih]

theorem alLookup_alStore_ne {α : Type} (k k' : String) (v : α) (hne : k' ≠ k) :
    ∀ l, alLookup k' (alStore k v l) = alLookup k' l := by
  intro l
  induction l with
  | nil => simp [alStore, alLookup, Ne.symm hne]
  | cons p rest ih =>
    obtain ⟨k'', v''⟩ := p
    by_cases h : k'' = k
    · subst h
      simp [alStore, alLookup, Ne.symm hne]
    · by_cases h2 : k'' = k'
      · subst h2
        simp [alStore, alLookup, h]
      · simp [alStore, alLookup, h, h2, ih]

theorem alStore_keys {α : Type} (k : String) (v : α) : ∀ l : List (String × α),
    (alStore k v l).map Prod.fst =
      if (alLookup k l).isSome then l.map Prod.fst else l.map Prod.fst ++ [k] := by
  intro l
  induction l with
  | nil => simp [alStore, alLookup]
  | cons p rest ih =>
    obtain ⟨k', v'⟩ := p
    by_cases h : k' = k
    · simp [alStore, alLookup, h]
    · simp only [alStore, alLookup, h, if_false, List.map_cons, ih]
      split <;> simp

/-! ## Memtable (src/lsmkv/storage/memtable.py)

The Python memtable holds the same key → entry mapping twice: in a
skiplist (sorted by key, for ordered drain) and in a dict (for point
lookups).  Both are updated identically by `put`/`delete`, so a single
insertion-ordered dict models the state; `get_all_entries`, which drains
the skiplist in key order, is the key-sort of the dict's values (keys are
unique, and Python's sort is stable, so this is exactly the skiplist
order). -/

structure Memtable where
  key_map : List (String × Entry)
  max_size : Nat
deriving DecidableEq, Repr

def Memtable.empty (maxSize : Nat) : Memtable := ⟨[], maxSize⟩

/-- `Memtable.put`: insert or update, in both skiplist and dict. -/
def Memtable.put (m : Memtable) (e : Entry) : Memtable :=
  { m with key_map := alStore e.key e m.key_map }

/-- `Memtable.get(key, include_tombstones=False)`: the stored entry, with
tombstones filtered out unless `include_tombstones` is set. -/
def Memtable.get (m : Memtable) (k : String) (include_tombstones : Bool) :
    Option Entry :=
  match alLookup k m.key_map with
  | some e => if include_tombstones || !e.is_deleted then some e else none
  | none => none

/-- `Memtable.delete`: store the tombstone entry (the caller sets
`is_deleted=True`). -/
def Memtable.delete (m : Memtable) (e : Entry) : Memtable :=
  { m with key_map := alStore e.key e m.key_map }

/-- `Memtable.is_full`: entry count has reached `max_size`. -/
def Memtable.is_full (m : Memtable) : Bool := m.max_size ≤ m.key_map.length

def Memtable.size (m : Memtable) : Nat := m.key_map.length

/-- `Memtable.get_all_entries`: all entries in ascending key order. -/
def Memtable.get_all_entries (m : Memtable) : List Entry :=
  List.insertionSort (fun a b => keyLe a.key b.key = true)
    (m.key_map.map Prod.snd)

/-! ## MemtableManager (src/lsmkv/core/memtable_manager.py)

The thread pool is flattened to synchronous execution: a rotation that
submits a flush returns the dequeued memtable so the caller (the store
facade) can run the flush callback immediately, which matches the
sequential semantics the claims quantify over. -/

/-- Wrapper for an immutable memtable awaiting flush (`ImmutableMemtable`);
`size_bytes` is estimated at 100 bytes per entry. -/
structure ImmutableMemtable where
  memtable : Memtable
  sequence_number : Nat
deriving DecidableEq, Repr

def ImmutableMemtable.size_bytes (im : ImmutableMemtable) : Nat :=
  100 * im.memtable.size

/-- `ImmutableMemtable.get` delegates to the wrapped memtable with the
default `include_tombstones=False`. -/
def ImmutableMemtable.get (im : ImmutableMemtable) (k : String) : Option Entry :=
  im.memtable.get k false

structure MemtableManager where
  memtable_size : Nat
  max_immutable : Nat
  max_memory_bytes : Nat
  active : Memtable
  immutable_queue : List ImmutableMemtable
  sequence_number : Nat
  total_flushes : Nat
  total_rotations : Nat
deriving DecidableEq, Repr

def MemtableManager.init (memtableSize maxImmutable maxMemoryBytes : Nat) :
    MemtableManager :=
  ⟨memtableSize, maxImmutable, maxMemoryBytes, Memtable.empty memtableSize,
   [], 0, 0, 0⟩

/-- Python `deque(maxlen=n).append`: appending to a full deque silently
drops the oldest element. -/
def dequeAppend {α : Type} (maxlen : Nat) (q : List α) (x : α) : List α :=
  if maxlen = 0 then []
  else if maxlen ≤ q.length then q.drop (q.length + 1 - maxlen) ++ [x]
  else q ++ [x]

/-- `MemtableManager._check_and_flush`: if the queue has reached
`max_immutable` or the estimated memory has reached `max_memory_bytes`,
pop the oldest immutable and submit it for flushing (returned to the
caller, who runs the flush callback). -/
def MemtableManager.check_and_flush (m : MemtableManager) :
    MemtableManager × Option Memtable :=
  let total_memory := (m.immutable_queue.map ImmutableMemtable.size_bytes).sum
  let should_flush :=
    m.max_immutable ≤ m.immutable_queue.length ∨
      m.max_memory_bytes ≤ total_memory
  if should_flush then
    match m.immutable_queue with
    | [] => (m, none)
    | oldest :: rest =>
      ({ m with immutable_queue := rest, total_flushes := m.total_flushes + 1 },
       some oldest.memtable)
  else (m, none)

/-- `MemtableManager._rotate_memtable`: wrap the active memtable, enqueue
it (bounded deque), allocate a fresh active memtable, then check whether a
flush must be submitted. -/
def MemtableManager.rotate_memtable (m : MemtableManager) :
    MemtableManager × Option Memtable :=
  let im : ImmutableMemtable := ⟨m.active, m.sequence_number⟩
  let m' := { m with
    sequence_number := m.sequence_number + 1,
    total_rotations := m.total_rotations + 1,
    immutable_queue := dequeAppend m.max_immutable m.immutable_queue im,
    active := Memtable.empty m.memtable_size }
  m'.check_and_flush

/-- `MemtableManager.put`: insert into the active memtable and rotate when
it becomes full.  The second component is the memtable handed to the flush
worker, if any. -/
def MemtableManager.putEntry (m : MemtableManager) (e : Entry) :
    MemtableManager × Option Memtable :=
  let m' := { m with active := m.active.put e }
  if m'.active.is_full then m'.rotate_memtable else (m', none)

/-- `MemtableManager.delete`: add a tombstone and rotate when full. -/
def MemtableManager.deleteEntry (m : MemtableManager) (e : Entry) :
    MemtableManager × Option Memtable :=
  let m' := { m with active := m.active.delete e }
  if m'.active.is_full then m'.rotate_memtable else (m', none)

/-- `MemtableManager.get`: check the active memtable first, then the
immutable queue newest-to-oldest; the underlying `Memtable.get` calls use
the default `include_tombstones=False`. -/
def MemtableManager.get (m : MemtableManager) (k : String) : Option Entry :=
  match m.active.get k false with
  | some e => some e
  | none => m.immutable_queue.reverse.findSome? (fun im => im.get k)

/-- Modelled from the spec: `MemtableManager.flush_active_sync` is called
by the facade's `flush()` but is absent from the sources; per §4.6 of the
spec it checks under the lock whether the active memtable has entries,
and if so wraps it as an immutable with the next sequence number, enqueues
it, allocates a fresh active memtable, and returns the wrapped reference
(`None` when the active memtable is empty). -/
def MemtableManager.flush_active_sync (m : MemtableManager) :
    Option ImmutableMemtable × MemtableManager :=
  if m.active.key_map.isEmpty then (none, m)
  else
    let im : ImmutableMemtable := ⟨m.active, m.sequence_number⟩
    (some im,
     { m with
        sequence_number := m.sequence_number + 1,
        total_rotations := m.total_rotations + 1,
        immutable_queue := m.immutable_queue ++ [im],
        active := Memtable.empty m.memtable_size })

/-- Modelled from the spec: `MemtableManager.remove_flushed_immutable`
(absent from the sources; per §4.6 it drops the given flushed immutable
from the queue once its run is published). -/
def MemtableManager.remove_flushed_immutable (m : MemtableManager)
    (seq : Nat) : MemtableManager :=
  { m with immutable_queue :=
      m.immutable_queue.filter (fun im => im.sequence_number ≠ seq) }

/-! ## Sparse index (src/lsmkv/storage/sparse_index.py)

Byte offsets are represented in line units: `SSTable.write` records the
byte offset of the start of each line it indexes, offsets are strictly
increasing in the line number (every serialised line is at least one byte
long), and the only uses of an offset are (a) comparisons between indexed
offsets and (b) slicing the data file at indexed offsets or EOF — all of
which are invariant under the order-isomorphism between byte offsets and
line numbers.  So `offset` below is the index of the line in the data
file. -/

structure IndexEntry where
  key : String
  offset : Nat
deriving DecidableEq, Repr

/-- Python's `bisect.bisect_right(entries, key)` on a key-sorted list
returns the insertion point after all entries with key ≤ the probe, i.e.
the first position whose key strictly exceeds the probe (library function,
modelled by its documented behaviour on sorted input: the length of the
maximal prefix of entries with key ≤ probe). -/
def bisectRight (idx : List IndexEntry) (k : String) : Nat :=
  (idx.takeWhile (fun p => keyLe p.key k)).length

/-- Python's `bisect.bisect_left(entries, key)` on a key-sorted list:
the first position whose key is ≥ the probe. -/
def bisectLeft (idx : List IndexEntry) (k : String) : Nat :=
  (idx.takeWhile (fun p => keyLt p.key k)).length

def IndexEntry.default : IndexEntry := ⟨"", 0⟩

/-- `SparseIndex.find_block_offset(key)`: offset of the floor entry
(largest indexed key ≤ target), or 0 when the target precedes all indexed
keys or the index is empty (the leading emptiness test is Python's
`if not self.entries`). -/
def find_block_offset (idx : List IndexEntry) (k : String) : Nat :=
  match idx with
  | [] => 0
  | x :: l =>
    let pos := bisectRight (x :: l) k
    if 0 < pos then ((x :: l).getD (pos - 1) IndexEntry.default).offset
    else 0

/-- `SparseIndex.find_ceil_offset(key)`: offset of the ceil entry
(smallest indexed key ≥ target), or `none`. -/
def find_ceil_offset (idx : List IndexEntry) (k : String) : Option Nat :=
  match idx with
  | [] => none
  | x :: l =>
    let pos := bisectLeft (x :: l) k
    if pos < (x :: l).length then
      some ((x :: l).getD pos IndexEntry.default).offset
    else none

/-- `SparseIndex.get_scan_range(key)`: `(floor offset, offset of the first
indexed key strictly greater than target, or None for EOF)`. -/
def get_scan_range (idx : List IndexEntry) (k : String) : Nat × Option Nat :=
  match idx with
  | [] => (0, none)
  | x :: l =>
    let start_offset := find_block_offset (x :: l) k
    let pos := bisectRight (x :: l) k
    if pos < (x :: l).length then
      (start_offset, some ((x :: l).getD pos IndexEntry.default).offset)
    else (start_offset, none)

/-! ## SSTable (src/lsmkv/storage/sstable.py)

`write` serialises each entry as one JSON line, adds every key to the
bloom filter, and indexes every `block_size`-th line; `get` consults the
bloom filter, computes the scan window from the sparse index, and scans
only that window, early-stopping once a parsed key exceeds the target.
The data file is represented as the list of its lines (each line JSON
round-trips, see the module comment), with offsets in line units.  The
bloom filter is a function parameter: `pybloomfiltermmap3` guarantees no
false negatives (`might_contain` returns False only if the key is
definitely absent) and nothing else, so theorems assume exactly that. -/

structure SSTableData where
  entries : List Entry
  index : List IndexEntry
deriving DecidableEq, Repr

/-- Loop body of `SSTable.write`'s `for i, entry in enumerate(entries)`:
index every `block_size`-th line, keyed by its entry, at its line
offset. -/
def buildSparseIndexAux (block_size : Nat) : Nat → List Entry → List IndexEntry
  | _, [] => []
  | i, e :: rest =>
    if i % block_size = 0 then
      ⟨e.key, i⟩ :: buildSparseIndexAux block_size (i + 1) rest
    else buildSparseIndexAux block_size (i + 1) rest

/-- The sparse index built by `SSTable.write`. -/
def buildSparseIndex (entries : List Entry) (block_size : Nat) :
    List IndexEntry :=
  buildSparseIndexAux block_size 0 entries

/-- `SSTable.write(entries, block_size)`: fails on an empty input,
otherwise produces the data file, sparse index and metadata
`(id, num_entries, min_key = first key, max_key = last key)`. -/
def SSTable.write (sid : Nat) (entries : List Entry) (block_size : Nat) :
    Except String (SSTableData × SSTableMetadata) :=
  match entries with
  | [] => .error "Cannot write empty SSTable"
  | e :: rest =>
    .ok (⟨e :: rest, buildSparseIndex (e :: rest) block_size⟩,
         ⟨sid, (e :: rest).length, e.key, (List.getLastD rest e).key⟩)

/-- Scan of the parsed lines of the bounded region: return the first entry
whose key equals the target; stop as soon as a parsed key exceeds the
target (entries are sorted). -/
def scanFor (k : String) : List Entry → Option Entry
  | [] => none
  | e :: rest =>
    if e.key = k then some e
    else if keyLt k e.key then none
    else scanFor k rest

/-- `SSTable._read_bounded_region`: clamp the end offset to the file
length, reject degenerate windows, and scan the slice `[start, end)`. -/
def readBoundedRegion (entries : List Entry) (k : String)
    (start_offset : Nat) (end_offset : Option Nat) : Option Entry :=
  let len := entries.length
  let endOff := match end_offset with
    | none => len
    | some e => if len < e then len else e
  if len ≤ start_offset ∨ endOff ≤ start_offset then none
  else scanFor k ((entries.drop start_offset).take (endOff - start_offset))

/-- `SSTable.get(key)`: bloom filter short-circuit, sparse-index scan
range, bounded scan. -/
def SSTable.getData (d : SSTableData) (bloom : String → Bool) (k : String) :
    Option Entry :=
  if !(bloom k) then none
  else
    let sr := get_scan_range d.index k
    readBoundedRegion d.entries k sr.1 sr.2

/-! ## Sparse index lemmas -/

theorem bisectRight_cons (x : IndexEntry) (l : List IndexEntry) (k : String) :
    bisectRight (x :: l) k =
      if keyLe x.key k then bisectRight l k + 1 else 0 := by
  simp only [bisectRight, List.takeWhile_cons]
  split <;> simp

theorem bisectRight_le (idx : List IndexEntry) (k : String) :
    bisectRight idx k ≤ idx.length :=
  (List.takeWhile_sublist _).length_le

theorem find_block_offset_eq (x : IndexEntry) (l : List IndexEntry)
    (k : String) :
    find_block_offset (x :: l) k =
      if 0 < bisectRight (x :: l) k then
        ((x :: l).getD (bisectRight (x :: l) k - 1) IndexEntry.default).offset
      else 0 := rfl

theorem get_scan_range_eq (x : IndexEntry) (l : List IndexEntry)
    (k : String) :
    get_scan_range (x :: l) k =
      if bisectRight (x :: l) k < (x :: l).length then
        (find_block_offset (x :: l) k,
         some ((x :: l).getD (bisectRight (x :: l) k) IndexEntry.default).offset)
      else (find_block_offset (x :: l) k, none) := rfl

theorem find_block_offset_cons (x : IndexEntry) (l : List IndexEntry)
    (k : String) :
    find_block_offset (x :: l) k =
      if keyLe x.key k then
        (if bisectRight l k = 0 then x.offset else find_block_offset l k)
      else 0 := by
  rw [find_block_offset_eq, bisectRight_cons]
  cases hx : keyLe x.key k with
  | false => simp
  | true =>
    simp only [if_true, Nat.zero_lt_succ, Nat.succ_sub_one]
    rcases Nat.eq_zero_or_pos (bisectRight l k) with hb | hb
    · simp [hb]
    · have hbne : bisectRight l k ≠ 0 := Nat.pos_iff_ne_zero.mp hb
      cases l with
      | nil => simp [bisectRight] at hbne
      | cons y m =>
        simp only [hbne, if_false]
        rw [find_block_offset_eq]
        simp only [hb, if_true]
        rw [show bisectRight (y :: m) k = (bisectRight (y :: m) k - 1) + 1 from
          (Nat.succ_pred_eq_of_pos hb).symm]
        simp [List.getD_cons_succ]

theorem get_scan_range_fst (idx : List IndexEntry) (k : String) :
    (get_scan_range idx k).1 = find_block_offset idx k := by
  cases idx with
  | nil => rfl
  | cons x l =>
    rw [get_scan_range_eq]
    split <;> rfl

theorem get_scan_range_snd_cons (x : IndexEntry) (l : List IndexEntry)
    (k : String) :
    (get_scan_range (x :: l) k).2 =
      if keyLe x.key k then (get_scan_range l k).2 else some x.offset := by
  rw [get_scan_range_eq, bisectRight_cons]
  cases hx : keyLe x.key k with
  | false =>
    have h0 : (0 : Nat) < (x :: l).length := Nat.zero_lt_succ _
    simp only [if_false, h0, if_true, List.getD_cons_zero, Bool.false_eq_true]
  | true =>
    simp only [if_true, List.length_cons]
    cases l with
    | nil =>
      have hno : ¬(bisectRight ([] : List IndexEntry) k + 1 < 0 + 1) := by
        simp [bisectRight]
      simp only [List.length_nil, hno, if_false]
      rfl
    | cons y m =>
      rw [get_scan_range_eq]
      by_cases hlt : bisectRight (y :: m) k < (y :: m).length
      · have h1 : bisectRight (y :: m) k + 1 < (y :: m).length + 1 :=
          Nat.succ_lt_succ hlt
        simp only [h1, if_true, List.getD_cons_succ, hlt]
      · have h1 : ¬(bisectRight (y :: m) k + 1 < (y :: m).length + 1) := by
          intro hc; exact hlt (Nat.lt_of_succ_lt_succ hc)
        simp only [h1, if_false, hlt]

theorem bisectRight_eq_zero_all_gt (l : List IndexEntry) (k : String)
    (hsort : l.Pairwise (fun a b => a.key ≤ b.key))
    (hz : bisectRight l k = 0) : ∀ e ∈ l, k < e.key := by
  cases l with
  | nil => intro e he; simp at he
  | cons y m =>
    rw [bisectRight_cons] at hz
    by_cases hy : keyLe y.key k
    · simp [hy] at hz
    · have hky : k < y.key :=
        not_le.mp (fun hc => hy ((keyLe_iff y.key k).mpr hc))
      intro e he
      rcases List.mem_cons.mp he with h | h
      · rw [h]; exact hky
      · exact lt_of_lt_of_le hky ((List.pairwise_cons.mp hsort).1 e h)

theorem bisectRight_pos_exists (l : List IndexEntry) (k : String)
    (hpos : bisectRight l k ≠ 0) : ∃ e ∈ l, e.key ≤ k := by
  cases l with
  | nil => simp [bisectRight] at hpos
  | cons y m =>
    rw [bisectRight_cons] at hpos
    by_cases hy : keyLe y.key k
    · exact ⟨y, List.mem_cons_self y m, (keyLe_iff y.key k).mp hy⟩
    · simp [hy] at hpos

theorem find_block_offset_floor (k : String) : ∀ (idx : List IndexEntry),
    idx.Pairwise (fun a b => a.key ≤ b.key) →
    (∃ e ∈ idx, e.key ≤ k) →
    ∃ f ∈ idx, find_block_offset idx k = f.offset ∧ f.key ≤ k ∧
      ∀ e ∈ idx, e.key ≤ k → e.key ≤ f.key := by
  intro idx
  induction idx with
  | nil =>
    intro _ hex
    simp at hex
  | cons x l ih =>
    intro hsort hex
    obtain ⟨hx, hl⟩ := List.pairwise_cons.mp hsort
    have hxk : x.key ≤ k := by
      obtain ⟨e, he, hek⟩ := hex
      rcases List.mem_cons.mp he with h | h
      · rw [← h]; exact hek
      · exact le_trans (hx e h) hek
    have hxk' : keyLe x.key k = true := (keyLe_iff x.key k).mpr hxk
    rw [find_block_offset_cons]
    simp only [hxk', if_true]
    by_cases hb : bisectRight l k = 0
    · simp only [hb, if_true]
      refine ⟨x, List.mem_cons_self x l, rfl, hxk, ?_⟩
      intro e he hek
      rcases List.mem_cons.mp he with h | h
      · rw [h]
      · exact absurd hek (not_le.mpr (bisectRight_eq_zero_all_gt l k hl hb e h))
    · simp only [hb, if_false]
      obtain ⟨f, hf, heq, hfk, hmax⟩ :=
        ih hl (bisectRight_pos_exists l k hb)
      refine ⟨f, List.mem_cons_of_mem x hf, heq, hfk, ?_⟩
      intro e he hek
      rcases List.mem_cons.mp he with h | h
      · rw [h]; exact hx f hf
      · exact hmax e h hek

theorem find_block_offset_all_gt (idx : List IndexEntry) (k : String)
    (hgt : ∀ e ∈ idx, k < e.key) : find_block_offset idx k = 0 := by
  cases idx with
  | nil => rfl
  | cons x l =>
    rw [find_block_offset_cons]
    have hx : ¬keyLe x.key k := by
      intro hc
      exact absurd ((keyLe_iff x.key k).mp hc)
        (not_le.mpr (hgt x (List.mem_cons_self x l)))
    simp [hx]

theorem get_scan_range_snd_all_le (k : String) : ∀ (idx : List IndexEntry),
    (∀ e ∈ idx, e.key ≤ k) → (get_scan_range idx k).2 = none := by
  intro idx
  induction idx with
  | nil => intro _; rfl
  | cons x l ih =>
    intro hall
    rw [get_scan_range_snd_cons]
    have hx : keyLe x.key k :=
      (keyLe_iff x.key k).mpr (hall x (List.mem_cons_self x l))
    simp only [hx, if_true]
    exact ih (fun e he => hall e (List.mem_cons_of_mem x he))

theorem get_scan_range_snd_ceil (k : String) : ∀ (idx : List IndexEntry),
    idx.Pairwise (fun a b => a.key ≤ b.key) →
    (∃ e ∈ idx, k < e.key) →
    ∃ g ∈ idx, (get_scan_range idx k).2 = some g.offset ∧ k < g.key ∧
      ∀ e ∈ idx, k < e.key → g.key ≤ e.key := by
  intro idx
  induction idx with
  | nil =>
    intro _ hex
    simp at hex
  | cons x l ih =>
    intro hsort hex
    obtain ⟨hx, hl⟩ := List.pairwise_cons.mp hsort
    rw [get_scan_range_snd_cons]
    by_cases hxk : keyLe x.key k
    · simp only [hxk, if_true]
      have hxle : x.key ≤ k := (keyLe_iff x.key k).mp hxk
      have hex' : ∃ e ∈ l, k < e.key := by
        obtain ⟨e, he, hek⟩ := hex
        rcases List.mem_cons.mp he with h | h
        · exact absurd (h ▸ hek) (not_lt.mpr hxle)
        · exact ⟨e, h, hek⟩
      obtain ⟨g, hg, heq, hgk, hmin⟩ := ih hl hex'
      refine ⟨g, List.mem_cons_of_mem x hg, heq, hgk, ?_⟩
      intro e he hek
      rcases List.mem_cons.mp he with h | h
      · exact absurd (h ▸ hek) (not_lt.mpr hxle)
      · exact hmin e h hek
    · simp only [hxk, if_false]
      have hkx : k < x.key := by
        by_contra hc
        exact hxk ((keyLe_iff x.key k).mpr (not_lt.mp hc) ▸ rfl)
      refine ⟨x, List.mem_cons_self x l, rfl, hkx, ?_⟩
      intro e he _
      rcases List.mem_cons.mp he with h | h
      · rw [h]
      · exact hx e h

/-- Claim C7: for a sparse index sorted ascending by key,
`find_block_offset` returns the offset of the largest indexed key ≤ the
probe (0 when the probe precedes all indexed keys), and `get_scan_range`
returns that floor offset paired with the offset of the smallest indexed
key strictly greater than the probe, or the EOF marker (`None`) when no
indexed key is strictly greater. -/
theorem sparse_index_floor_ceil (idx : List IndexEntry) (k : String)
    (hsort : idx.Pairwise (fun a b => a.key ≤ b.key)) :
    ((∀ e ∈ idx, k < e.key) → find_block_offset idx k = 0) ∧
    ((∃ e ∈ idx, e.key ≤ k) →
      ∃ f ∈ idx, find_block_offset idx k = f.offset ∧ f.key ≤ k ∧
        ∀ e ∈ idx, e.key ≤ k → e.key ≤ f.key) ∧
    ((get_scan_range idx k).1 = find_block_offset idx k) ∧
    ((∀ e ∈ idx, e.key ≤ k) → (get_scan_range idx k).2 = none) ∧
    ((∃ e ∈ idx, k < e.key) →
      ∃ g ∈ idx, (get_scan_range idx k).2 = some g.offset ∧ k < g.key ∧
        ∀ e ∈ idx, k < e.key → g.key ≤ e.key) :=
  ⟨find_block_offset_all_gt idx k,
   fun hex => find_block_offset_floor k idx hsort hex,
   get_scan_range_fst idx k,
   get_scan_range_snd_all_le k idx,
   fun hex => get_scan_range_snd_ceil k idx hsort hex⟩

/-- Witness for C7 at a concrete sorted index and probe. -/
theorem sparse_index_floor_ceil_witness :
    ([(⟨"b", 0⟩ : IndexEntry), ⟨"d", 4⟩, ⟨"f", 8⟩].Pairwise
        (fun a b => a.key ≤ b.key)) ∧
    (((∀ e ∈ [(⟨"b", 0⟩ : IndexEntry), ⟨"d", 4⟩, ⟨"f", 8⟩], "c" < e.key) →
        find_block_offset [⟨"b", 0⟩, ⟨"d", 4⟩, ⟨"f", 8⟩] "c" = 0) ∧
      ((∃ e ∈ [(⟨"b", 0⟩ : IndexEntry), ⟨"d", 4⟩, ⟨"f", 8⟩], e.key ≤ "c") →
        ∃ f ∈ [(⟨"b", 0⟩ : IndexEntry), ⟨"d", 4⟩, ⟨"f", 8⟩],
          find_block_offset [⟨"b", 0⟩, ⟨"d", 4⟩, ⟨"f", 8⟩] "c" = f.offset ∧
          f.key ≤ "c" ∧
          ∀ e ∈ [(⟨"b", 0⟩ : IndexEntry), ⟨"d", 4⟩, ⟨"f", 8⟩],
            e.key ≤ "c" → e.key ≤ f.key) ∧
      ((get_scan_range [⟨"b", 0⟩, ⟨"d", 4⟩, ⟨"f", 8⟩] "c").1 =
        find_block_offset [⟨"b", 0⟩, ⟨"d", 4⟩, ⟨"f", 8⟩] "c") ∧
      ((∀ e ∈ [(⟨"b", 0⟩ : IndexEntry), ⟨"d", 4⟩, ⟨"f", 8⟩], e.key ≤ "c") →
        (get_scan_range [⟨"b", 0⟩, ⟨"d", 4⟩, ⟨"f", 8⟩] "c").2 = none) ∧
      ((∃ e ∈ [(⟨"b", 0⟩ : IndexEntry), ⟨"d", 4⟩, ⟨"f", 8⟩], "c" < e.key) →
        ∃ g ∈ [(⟨"b", 0⟩ : IndexEntry), ⟨"d", 4⟩, ⟨"f", 8⟩],
          (get_scan_range [⟨"b", 0⟩, ⟨"d", 4⟩, ⟨"f", 8⟩] "c").2 =
            some g.offset ∧ "c" < g.key ∧
          ∀ e ∈ [(⟨"b", 0⟩ : IndexEntry), ⟨"d", 4⟩, ⟨"f", 8⟩],
            "c" < e.key → g.key ≤ e.key)) := by
  refine ⟨?_, sparse_index_floor_ceil _ "c" ?_⟩ <;>
  · refine List.Pairwise.cons ?_
      (List.Pairwise.cons ?_ (List.pairwise_singleton _ _)) <;>
    · intro e he
      fin_cases he <;> exact (keyLe_iff _ _).mp (by decide)

/-! ## SSTable point-lookup lemmas (claim C5) -/

theorem buildSparseIndexAux_spec (bs : Nat) : ∀ (l : List Entry) (i : Nat),
    ∀ p ∈ buildSparseIndexAux bs i l,
      i ≤ p.offset ∧ ∃ e, l.get? (p.offset - i) = some e ∧ e.key = p.key := by
  intro l
  induction l with
  | nil => intro i p hp; simp [buildSparseIndexAux] at hp
  | cons e rest ih =>
    intro i p hp
    rw [buildSparseIndexAux] at hp
    have htail : p ∈ buildSparseIndexAux bs (i + 1) rest →
        i ≤ p.offset ∧ ∃ e', (e :: rest).get? (p.offset - i) = some e' ∧
          e'.key = p.key := by
      intro h
      obtain ⟨hle, e', hget, hkey⟩ := ih (i + 1) p h
      refine ⟨le_trans (Nat.le_succ i) hle, e', ?_, hkey⟩
      have h1 : p.offset - i = (p.offset - (i + 1)) + 1 := by omega
      rw [h1]
      simpa using hget
    by_cases hm : i % bs = 0
    · rw [if_pos hm] at hp
      rcases List.mem_cons.mp hp with h | h
      · subst h
        exact ⟨le_refl _, e, by simp, rfl⟩
      · exact htail h
    · rw [if_neg hm] at hp
      exact htail hp

theorem buildSparseIndexAux_offsets (bs : Nat) : ∀ (l : List Entry) (i : Nat),
    (buildSparseIndexAux bs i l).Pairwise
      (fun a b => a.offset < b.offset) := by
  intro l
  induction l with
  | nil => intro i; exact List.Pairwise.nil
  | cons e rest ih =>
    intro i
    rw [buildSparseIndexAux]
    by_cases hm : i % bs = 0
    · rw [if_pos hm]
      refine List.Pairwise.cons ?_ (ih (i + 1))
      intro q hq
      exact lt_of_lt_of_le (Nat.lt_succ_self i)
        (buildSparseIndexAux_spec bs rest (i + 1) q hq).1
    · rw [if_neg hm]
      exact ih (i + 1)

theorem buildSparseIndex_spec (entries : List Entry) (bs : Nat) :
    ∀ p ∈ buildSparseIndex entries bs,
      ∃ e, entries.get? p.offset = some e ∧ e.key = p.key := by
  intro p hp
  obtain ⟨-, e, hget, hkey⟩ := buildSparseIndexAux_spec bs entries 0 p hp
  exact ⟨e, by simpa using hget, hkey⟩

theorem buildSparseIndex_first (e0 : Entry) (rest : List Entry) (bs : Nat) :
    (⟨e0.key, 0⟩ : IndexEntry) ∈ buildSparseIndex (e0 :: rest) bs := by
  rw [buildSparseIndex, buildSparseIndexAux, if_pos (Nat.zero_mod bs)]
  exact List.mem_cons_self _ _

theorem sorted_key_le_of_get? (entries : List Entry)
    (hsort : entries.Pairwise (fun a b => a.key ≤ b.key))
    {i j : Nat} {ei ej : Entry} (hij : i ≤ j)
    (hi : entries.get? i = some ei) (hj : entries.get? j = some ej) :
    ei.key ≤ ej.key := by
  rcases Nat.lt_or_ge i j with h | h
  · obtain ⟨hil, hig⟩ := List.get?_eq_some.mp hi
    obtain ⟨hjl, hjg⟩ := List.get?_eq_some.mp hj
    have := List.pairwise_iff_get.mp hsort ⟨i, hil⟩ ⟨j, hjl⟩ h
    rw [hig, hjg] at this
    exact this
  · have : i = j := le_antisymm hij h
    subst this
    rw [hi] at hj
    injection hj with h'
    rw [h']

theorem buildSparseIndex_keys_sorted (entries : List Entry) (bs : Nat)
    (hsort : entries.Pairwise (fun a b => a.key ≤ b.key)) :
    (buildSparseIndex entries bs).Pairwise (fun a b => a.key ≤ b.key) := by
  refine List.Pairwise.imp_of_mem ?_ (buildSparseIndexAux_offsets bs entries 0)
  intro a b ha hb hoff
  obtain ⟨ea, hga, hka⟩ := buildSparseIndex_spec entries bs a ha
  obtain ⟨eb, hgb, hkb⟩ := buildSparseIndex_spec entries bs b hb
  rw [← hka, ← hkb]
  exact sorted_key_le_of_get? entries hsort (le_of_lt hoff) hga hgb

theorem scanFor_some (k : String) : ∀ (l : List Entry) (e : Entry),
    scanFor k l = some e → e ∈ l ∧ e.key = k := by
  intro l
  induction l with
  | nil => intro e h; simp [scanFor] at h
  | cons x rest ih =>
    intro e h
    rw [scanFor] at h
    by_cases hx : x.key = k
    · rw [if_pos hx] at h
      injection h with h'
      exact ⟨h' ▸ List.mem_cons_self x rest, h' ▸ hx⟩
    · rw [if_neg hx] at h
      by_cases hlt : keyLt k x.key
      · rw [if_pos hlt] at h; cases h
      · rw [if_neg hlt] at h
        obtain ⟨hmem, hkey⟩ := ih e h
        exact ⟨List.mem_cons_of_mem x hmem, hkey⟩

theorem scanFor_finds (k : String) : ∀ (l : List Entry),
    l.Pairwise (fun a b => a.key ≤ b.key) →
    (∃ e ∈ l, e.key = k) →
    ∃ e, scanFor k l = some e ∧ e.key = k := by
  intro l
  induction l with
  | nil => intro _ hex; simp at hex
  | cons x rest ih =>
    intro hsort hex
    obtain ⟨hx, hrest⟩ := List.pairwise_cons.mp hsort
    rw [scanFor]
    by_cases hxk : x.key = k
    · exact ⟨x, by rw [if_pos hxk], hxk⟩
    · rw [if_neg hxk]
      have hex' : ∃ e ∈ rest, e.key = k := by
        obtain ⟨e, he, hek⟩ := hex
        rcases List.mem_cons.mp he with h | h
        · exact absurd (h ▸ hek) hxk
        · exact ⟨e, h, hek⟩
      have hklt : ¬keyLt k x.key := by
        obtain ⟨e, he, hek⟩ := hex'
        intro hc
        have h1 : x.key ≤ e.key := hx e he
        have h2 : k < x.key := (keyLt_iff k x.key).mp hc
        exact absurd (hek ▸ h1 : x.key ≤ k) (not_le.mpr h2)
      rw [if_neg hklt]
      exact ih hrest hex'

theorem mem_slice_of_get? (entries : List Entry) {s E q : Nat} {eq' : Entry}
    (hs : s ≤ q) (hE : q < E) (hget : entries.get? q = some eq') :
    eq' ∈ (entries.drop s).take (E - s) := by
  have h : ((entries.drop s).take (E - s)).get? (q - s) = some eq' := by
    rw [List.get?_take (by omega), List.get?_drop]
    rw [show s + (q - s) = q from by omega]
    exact hget
  exact List.get?_mem h

theorem slice_subset (entries : List Entry) (s t : Nat) :
    (entries.drop s).take t ⊆ entries :=
  fun _ h => List.drop_subset s entries (List.take_subset t _ h)

theorem slice_sorted (entries : List Entry) (s t : Nat)
    (hsort : entries.Pairwise (fun a b => a.key ≤ b.key)) :
    ((entries.drop s).take t).Pairwise (fun a b => a.key ≤ b.key) :=
  List.Pairwise.sublist
    ((List.take_sublist t _).trans (List.drop_sublist s entries)) hsort

theorem exists_hit_in_window (entries : List Entry) (bs : Nat) (k : String)
    (hsort : entries.Pairwise (fun a b => a.key ≤ b.key))
    (estar : Entry) (hmem : estar ∈ entries) (hkey : estar.key = k) :
    ∃ q eq', (get_scan_range (buildSparseIndex entries bs) k).1 ≤ q ∧
      q < entries.length ∧
      (∀ o, (get_scan_range (buildSparseIndex entries bs) k).2 = some o →
        q < o) ∧
      entries.get? q = some eq' ∧ eq'.key = k := by
  obtain ⟨p, hp⟩ := List.get?_of_mem hmem
  obtain ⟨e0, rest, hent⟩ : ∃ e0 rest, entries = e0 :: rest := by
    cases entries with
    | nil => simp at hmem
    | cons a b => exact ⟨a, b, rfl⟩
  have hidxsort := buildSparseIndex_keys_sorted entries bs hsort
  have hfirst : (⟨e0.key, 0⟩ : IndexEntry) ∈ buildSparseIndex entries bs := by
    rw [hent]; exact buildSparseIndex_first e0 rest bs
  have he0 : entries.get? 0 = some e0 := by rw [hent]; rfl
  have he0k : e0.key ≤ k :=
    hkey ▸ sorted_key_le_of_get? entries hsort (Nat.zero_le p) he0 hp
  obtain ⟨f, hfmem, hfeq, hfk, hfmax⟩ :=
    find_block_offset_floor k _ hidxsort ⟨⟨e0.key, 0⟩, hfirst, he0k⟩
  obtain ⟨ef, hefget, hefkey⟩ := buildSparseIndex_spec entries bs f hfmem
  have hstart : (get_scan_range (buildSparseIndex entries bs) k).1 = f.offset := by
    rw [get_scan_range_fst]; exact hfeq
  have hceil : ∀ o,
      (get_scan_range (buildSparseIndex entries bs) k).2 = some o →
      ∃ g ∈ buildSparseIndex entries bs, o = g.offset ∧ k < g.key := by
    intro o ho
    have hex : ∃ e ∈ buildSparseIndex entries bs, k < e.key := by
      by_contra hall
      push_neg at hall
      rw [get_scan_range_snd_all_le k _ (fun e he => hall e he)] at ho
      cases ho
    obtain ⟨g, hg, hgeq, hgk, -⟩ := get_scan_range_snd_ceil k _ hidxsort hex
    rw [hgeq] at ho
    injection ho with ho'
    exact ⟨g, hg, ho'.symm, hgk⟩
  by_cases hfp : f.offset ≤ p
  · refine ⟨p, estar, hstart ▸ hfp, (List.get?_eq_some.mp hp).1, ?_, hp, hkey⟩
    intro o ho
    obtain ⟨g, hg, hoeq, hgk⟩ := hceil o ho
    obtain ⟨eg, hgget, hgkey⟩ := buildSparseIndex_spec entries bs g hg
    subst hoeq
    by_contra hc
    have h1 : eg.key ≤ estar.key :=
      sorted_key_le_of_get? entries hsort (not_lt.mp hc) hgget hp
    rw [hgkey, hkey] at h1
    exact absurd h1 (not_le.mpr hgk)
  · push_neg at hfp
    have h1 : estar.key ≤ ef.key :=
      sorted_key_le_of_get? entries hsort (le_of_lt hfp) hp hefget
    have hefk : ef.key = k :=
      le_antisymm (hefkey ▸ hfk) (hkey ▸ h1)
    refine ⟨f.offset, ef, hstart ▸ le_refl _,
      (List.get?_eq_some.mp hefget).1, ?_, hefget, hefk⟩
    intro o ho
    obtain ⟨g, hg, hoeq, hgk⟩ := hceil o ho
    obtain ⟨eg, hgget, hgkey⟩ := buildSparseIndex_spec entries bs g hg
    subst hoeq
    by_contra hc
    have h2 : eg.key ≤ ef.key :=
      sorted_key_le_of_get? entries hsort (not_lt.mp hc) hgget hefget
    rw [hgkey, hefk] at h2
    exact absurd h2 (not_le.mpr hgk)

theorem getData_present (entries : List Entry) (bs : Nat)
    (bloom : String → Bool) (k : String)
    (hsort : entries.Pairwise (fun a b => a.key ≤ b.key))
    (hbloom : ∀ e ∈ entries, bloom e.key = true)
    (estar : Entry) (hmem : estar ∈ entries) (hkey : estar.key = k) :
    ∃ e, SSTable.getData ⟨entries, buildSparseIndex entries bs⟩ bloom k =
        some e ∧ e ∈ entries ∧ e.key = k := by
  have hbk : bloom k = true := hkey ▸ hbloom estar hmem
  obtain ⟨q, eq', hq1, hq2, hq3, hq4, hq5⟩ :=
    exists_hit_in_window entries bs k hsort estar hmem hkey
  rw [SSTable.getData]
  simp only [hbk, Bool.not_true, Bool.false_eq_true, if_false]
  have hslt : (get_scan_range (buildSparseIndex entries bs) k).1 <
      entries.length := lt_of_le_of_lt hq1 hq2
  cases hsnd : (get_scan_range (buildSparseIndex entries bs) k).2 with
  | none =>
    rw [readBoundedRegion]
    rw [if_neg (by omega)]
    obtain ⟨e, hsome, hek⟩ := scanFor_finds k _ (slice_sorted entries _ _ hsort)
      ⟨eq', mem_slice_of_get? entries hq1 hq2 hq4, hq5⟩
    exact ⟨e, hsome,
      slice_subset entries _ _ (scanFor_some k _ e hsome).1, hek⟩
  | some o =>
    have hqo : q < o := hq3 o hsnd
    rw [readBoundedRegion]
    by_cases hlen : entries.length < o
    · rw [if_pos hlen]
      rw [if_neg (by omega)]
      obtain ⟨e, hsome, hek⟩ := scanFor_finds k _
        (slice_sorted entries _ _ hsort)
        ⟨eq', mem_slice_of_get? entries hq1 hq2 hq4, hq5⟩
      exact ⟨e, hsome,
        slice_subset entries _ _ (scanFor_some k _ e hsome).1, hek⟩
    · rw [if_neg hlen]
      rw [if_neg (by omega)]
      obtain ⟨e, hsome, hek⟩ := scanFor_finds k _
        (slice_sorted entries _ _ hsort)
        ⟨eq', mem_slice_of_get? entries hq1 hqo hq4, hq5⟩
      exact ⟨e, hsome,
        slice_subset entries _ _ (scanFor_some k _ e hsome).1, hek⟩

theorem readBoundedRegion_mem (entries : List Entry) (k : String)
    (s : Nat) (e? : Option Nat) (e : Entry)
    (h : readBoundedRegion entries k s e? = some e) :
    e ∈ entries ∧ e.key = k := by
  cases e? with
  | none =>
    rw [readBoundedRegion] at h
    by_cases hg : entries.length ≤ s ∨ entries.length ≤ s
    · rw [if_pos hg] at h; cases h
    · rw [if_neg hg] at h
      obtain ⟨hmem, hkey⟩ := scanFor_some k _ e h
      exact ⟨slice_subset entries _ _ hmem, hkey⟩
  | some o =>
    rw [readBoundedRegion] at h
    by_cases hg : entries.length ≤ s ∨
        (if entries.length < o then entries.length else o) ≤ s
    · rw [if_pos hg] at h; cases h
    · rw [if_neg hg] at h
      obtain ⟨hmem, hkey⟩ := scanFor_some k _ e h
      exact ⟨slice_subset entries _ _ hmem, hkey⟩

theorem getData_absent (entries : List Entry) (idx : List IndexEntry)
    (bloom : String → Bool) (k : String)
    (hnone : ∀ e ∈ entries, e.key ≠ k) :
    SSTable.getData ⟨entries, idx⟩ bloom k = none := by
  rw [SSTable.getData]
  cases hbk : bloom k with
  | false => simp
  | true =>
    simp only [Bool.not_true, Bool.false_eq_true, if_false]
    cases hres : readBoundedRegion entries k (get_scan_range idx k).1
        (get_scan_range idx k).2 with
    | none => rfl
    | some e =>
      obtain ⟨hmem, hkey⟩ := readBoundedRegion_mem entries k _ _ e hres
      exact absurd hkey (hnone e hmem)

/-- Claim C5: for every non-empty key-sorted entry list, writing an
SSTable and then reading key `k` through the bloom filter (no false
negatives), the sparse-index scan range, and the early-stopping bounded
scan returns an entry of the list with key `k` exactly when one exists,
and absent (`None`) otherwise; `SSTable.write` fails with an error on an
empty input. -/
theorem sstable_write_then_get (sid : Nat) (entries : List Entry) (bs : Nat)
    (bloom : String → Bool) (k : String)
    (hsort : entries.Pairwise (fun a b => a.key ≤ b.key))
    (hbloom : ∀ e ∈ entries, bloom e.key = true) :
    (SSTable.write sid [] bs = Except.error "Cannot write empty SSTable") ∧
    ∀ d md, SSTable.write sid entries bs = Except.ok (d, md) →
      (((∃ e ∈ entries, e.key = k) →
          ∃ e, SSTable.getData d bloom k = some e ∧ e ∈ entries ∧ e.key = k) ∧
        ((∀ e ∈ entries, e.key ≠ k) → SSTable.getData d bloom k = none)) := by
  refine ⟨rfl, ?_⟩
  intro d md hw
  cases entries with
  | nil => cases hw
  | cons e0 rest =>
    have hred : SSTable.write sid (e0 :: rest) bs =
        Except.ok (⟨e0 :: rest, buildSparseIndex (e0 :: rest) bs⟩,
          ⟨sid, (e0 :: rest).length, e0.key, (List.getLastD rest e0).key⟩) := rfl
    rw [hred] at hw
    injection hw with hpair
    rw [Prod.mk.injEq] at hpair
    obtain ⟨hd, -⟩ := hpair
    subst hd
    constructor
    · intro ⟨estar, hmem, hkey⟩
      exact getData_present (e0 :: rest) bs bloom k hsort hbloom estar hmem hkey
    · intro hnone
      exact getData_absent (e0 :: rest) _ bloom k hnone

/-- Entries used by the C5 witness. -/
def c5Entries : List Entry :=
  [⟨"a", some "1", 1, false⟩, ⟨"c", some "2", 2, false⟩,
   ⟨"e", some "3", 3, false⟩]

/-- Bloom function used by the C5 witness (exact membership: a bloom
filter with no false positives on this input). -/
def c5Bloom (s : String) : Bool := ["a", "c", "e"].contains s

/-! ## Write-ahead log (src/lsmkv/storage/wal.py)

The WAL file is modelled as the list of its lines; a well-formed line
carries its parsed record (`some r`), a corrupt line is `none` and is
skipped with a warning by `read_all`. -/

/-- `WAL.read_all`: every well-formed record, in file order. -/
def walReadAll (file : List (Option WALRecord)) : List WALRecord :=
  file.filterMap id

/-- `WAL.append`: serialise and append one record (with fsync). -/
def walAppend (file : List (Option WALRecord)) (r : WALRecord) :
    List (Option WALRecord) :=
  file ++ [some r]

/-- `WAL.replace_with_filtered`: read all records, keep those satisfying
the predicate, write them to a sibling temp file and atomically rename it
over the primary file, all under the single WAL lock — the resulting file
holds exactly the kept records, serialised one per line. -/
def walReplaceWithFiltered (file : List (Option WALRecord))
    (pred : WALRecord → Bool) : List (Option WALRecord) :=
  ((walReadAll file).filter pred).map some

/-! ## Max-by-timestamp folds

The compaction merges (`key_map` in `_background_compact`,
`_compact_level_to_next` and `compact`) and the WAL-clearing predicate
(`flushed_ts` in `_clear_wal_for_flushed_data`) all fold a list into a
dict keeping, per key, the element with the maximum measure; a
strictly-greater measure replaces, so ties keep the earliest element. -/

def maxByStep {α : Type} (key : α → String) (meas : α → Int)
    (m : List (String × α)) (e : α) : List (String × α) :=
  match alLookup (key e) m with
  | none => m ++ [(key e, e)]
  | some cur => if meas cur < meas e then alStore (key e) e m else m

def maxByKeyFold {α : Type} (key : α → String) (meas : α → Int)
    (l : List α) : List (String × α) :=
  l.foldl (maxByStep key meas) []

/-- Accumulator-level view of the fold, restricted to one probe key. -/
def maxCombine {α : Type} (key : α → String) (meas : α → Int) (k : String)
    (acc : Option α) (e : α) : Option α :=
  if key e = k then
    match acc with
    | none => some e
    | some c => if meas c < meas e then some e else acc
  else acc

theorem alLookup_append_single {α : Type} (k j : String) (v : α) :
    ∀ m : List (String × α), alLookup k (m ++ [(j, v)]) =
      match alLookup k m with
      | some w => some w
      | none => if j = k then some v else none := by
  intro m
  induction m with
  | nil => simp [alLookup]
  | cons p rest ih =>
    obtain ⟨k', v'⟩ := p
    by_cases h : k' = k
    · simp [alLookup, h]
    · simp only [List.cons_append, alLookup, h, if_false]
      exact ih

theorem alLookup_eq_none {α : Type} (k : String) :
    ∀ m : List (String × α), alLookup k m = none ↔ k ∉ m.map Prod.fst := by
  intro m
  induction m with
  | nil => simp [alLookup]
  | cons p rest ih =>
    obtain ⟨k', v'⟩ := p
    by_cases h : k' = k
    · simp [alLookup, h]
    · simp [alLookup, h, ih, Ne.symm h]

theorem maxByStep_eq_none {α : Type} (key : α → String) (meas : α → Int)
    {m : List (String × α)} {e : α} (h : alLookup (key e) m = none) :
    maxByStep key meas m e = m ++ [(key e, e)] := by
  unfold maxByStep
  rw [h]

theorem maxByStep_eq_some {α : Type} (key : α → String) (meas : α → Int)
    {m : List (String × α)} {e cur : α}
    (h : alLookup (key e) m = some cur) :
    maxByStep key meas m e =
      if meas cur < meas e then alStore (key e) e m else m := by
  unfold maxByStep
  rw [h]

theorem maxCombine_none_eq {α : Type} (key : α → String) (meas : α → Int)
    (k : String) (e : α) :
    maxCombine key meas k none e = if key e = k then some e else none := by
  unfold maxCombine
  by_cases hk : key e = k <;> simp [hk]

theorem maxCombine_some_eq {α : Type} (key : α → String) (meas : α → Int)
    (k : String) (c e : α) :
    maxCombine key meas k (some c) e =
      if key e = k then (if meas c < meas e then some e else some c)
      else some c := by
  unfold maxCombine
  by_cases hk : key e = k <;> simp [hk]

theorem maxCombine_of_ne {α : Type} (key : α → String) (meas : α → Int)
    (k : String) (acc : Option α) (e : α) (hk : key e ≠ k) :
    maxCombine key meas k acc e = acc := by
  unfold maxCombine
  rw [if_neg hk]

theorem alLookup_maxByStep {α : Type} (key : α → String) (meas : α → Int)
    (k : String) (m : List (String × α)) (e : α) :
    alLookup k (maxByStep key meas m e) =
      maxCombine key meas k (alLookup k m) e := by
  by_cases hk : key e = k
  · subst hk
    cases h : alLookup (key e) m with
    | none =>
      rw [maxByStep_eq_none key meas h, alLookup_append_single,
        maxCombine_none_eq, if_pos rfl, h]
    | some cur =>
      rw [maxByStep_eq_some key meas h, maxCombine_some_eq, if_pos rfl]
      by_cases hm : meas cur < meas e
      · rw [if_pos hm, if_pos hm]
        exact alLookup_alStore_self (key e) e m
      · rw [if_neg hm, if_neg hm]
        exact h
  · rw [maxCombine_of_ne key meas k _ e hk]
    cases h : alLookup (key e) m with
    | none =>
      rw [maxByStep_eq_none key meas h, alLookup_append_single]
      cases hkm : alLookup k m with
      | none => rw [if_neg hk]
      | some w => rfl
    | some cur =>
      rw [maxByStep_eq_some key meas h]
      by_cases hm : meas cur < meas e
      · rw [if_pos hm]
        exact alLookup_alStore_ne (key e) k e (fun hc => hk hc.symm) m
      · rw [if_neg hm]

theorem alLookup_maxByKeyFold_gen {α : Type} (key : α → String)
    (meas : α → Int) (k : String) :
    ∀ (l : List α) (m : List (String × α)),
      alLookup k (l.foldl (maxByStep key meas) m) =
        l.foldl (maxCombine key meas k) (alLookup k m) := by
  intro l
  induction l with
  | nil => intro m; rfl
  | cons e rest ih =>
    intro m
    rw [List.foldl_cons, List.foldl_cons, ih, alLookup_maxByStep]

theorem alLookup_maxByKeyFold {α : Type} (key : α → String)
    (meas : α → Int) (k : String) (l : List α) :
    alLookup k (maxByKeyFold key meas l) =
      l.foldl (maxCombine key meas k) none := by
  rw [maxByKeyFold, alLookup_maxByKeyFold_gen]
  rfl

theorem maxCombine_of_match {α : Type} (key : α → String) (meas : α → Int)
    (k : String) (acc : Option α) (e : α) (hk : key e = k) :
    ∃ c', maxCombine key meas k acc e = some c' ∧ meas e ≤ meas c' ∧
      ∀ c, acc = some c → meas c ≤ meas c' := by
  cases acc with
  | none =>
    refine ⟨e, ?_, le_refl _, fun c hc => by cases hc⟩
    rw [maxCombine_none_eq, if_pos hk]
  | some c =>
    by_cases hm : meas c < meas e
    · refine ⟨e, ?_, le_refl _,
        fun c' hc' => by injection hc' with h; rw [← h]; exact le_of_lt hm⟩
      rw [maxCombine_some_eq, if_pos hk, if_pos hm]
    · refine ⟨c, ?_, not_lt.mp hm,
        fun c' hc' => by injection hc' with h; rw [← h]⟩
      rw [maxCombine_some_eq, if_pos hk, if_neg hm]

theorem maxFold_some_spec {α : Type} (key : α → String) (meas : α → Int)
    (k : String) : ∀ (l : List α) (acc : Option α) (r : α),
    (∀ c, acc = some c → key c = k) →
    l.foldl (maxCombine key meas k) acc = some r →
    key r = k ∧ (r ∈ l ∨ acc = some r) ∧
      (∀ e ∈ l, key e = k → meas e ≤ meas r) ∧
      (∀ c, acc = some c → meas c ≤ meas r) := by
  intro l
  induction l with
  | nil =>
    intro acc r hacc hr
    have hr' : acc = some r := hr
    refine ⟨hacc r hr', Or.inr hr', by simp, ?_⟩
    intro c hc
    rw [hr'] at hc
    injection hc with h
    rw [h]
  | cons e rest ih =>
    intro acc r hacc hr
    rw [List.foldl_cons] at hr
    by_cases hk : key e = k
    · obtain ⟨c', hc'eq, hc'e, hc'acc⟩ :=
        maxCombine_of_match key meas k acc e hk
      have hacc' : ∀ c, maxCombine key meas k acc e = some c → key c = k := by
        intro c hc
        rw [hc'eq] at hc
        injection hc with h
        subst h
        cases hacc0 : acc with
        | none =>
          rw [hacc0, maxCombine_none_eq, if_pos hk] at hc'eq
          injection hc'eq with h2
          rw [← h2]; exact hk
        | some c0 =>
          rw [hacc0, maxCombine_some_eq, if_pos hk] at hc'eq
          by_cases hm : meas c0 < meas e
          · rw [if_pos hm] at hc'eq
            injection hc'eq with h2; rw [← h2]; exact hk
          · rw [if_neg hm] at hc'eq
            injection hc'eq with h2; rw [← h2]; exact hacc c0 hacc0
      obtain ⟨hkey, hmem, hall, haccle⟩ := ih _ r hacc' hr
      refine ⟨hkey, ?_, ?_, ?_⟩
      · rcases hmem with h | h
        · exact Or.inl (List.mem_cons_of_mem e h)
        · rw [hc'eq] at h
          injection h with h2
          subst h2
          cases hacc0 : acc with
          | none =>
            rw [hacc0, maxCombine_none_eq, if_pos hk] at hc'eq
            injection hc'eq with h3
            exact Or.inl (h3 ▸ List.mem_cons_self e rest)
          | some c0 =>
            rw [hacc0, maxCombine_some_eq, if_pos hk] at hc'eq
            by_cases hm : meas c0 < meas e
            · rw [if_pos hm] at hc'eq
              injection hc'eq with h3
              exact Or.inl (h3 ▸ List.mem_cons_self e rest)
            · rw [if_neg hm] at hc'eq
              injection hc'eq with h3
              exact Or.inr (congrArg some h3)
      · intro e' he' hke'
        rcases List.mem_cons.mp he' with h | h
        · subst h
          exact le_trans hc'e (haccle c' (by rw [hc'eq]))
        · exact hall e' h hke'
      · intro c hc
        exact le_trans (hc'acc c hc) (haccle c' (by rw [hc'eq]))
    · rw [maxCombine_of_ne key meas k acc e hk] at hr
      obtain ⟨hkey, hmem, hall, haccle⟩ := ih acc r hacc hr
      refine ⟨hkey, ?_, ?_, haccle⟩
      · rcases hmem with h | h
        · exact Or.inl (List.mem_cons_of_mem e h)
        · exact Or.inr h
      · intro e' he' hke'
        rcases List.mem_cons.mp he' with h | h
        · exact absurd (h ▸ hke') hk
        · exact hall e' h hke'

theorem maxFold_ne_none {α : Type} (key : α → String) (meas : α → Int)
    (k : String) : ∀ (l : List α) (c : α),
    l.foldl (maxCombine key meas k) (some c) ≠ none := by
  intro l
  induction l with
  | nil => intro c h; cases h
  | cons e rest ih =>
    intro c h
    rw [List.foldl_cons] at h
    by_cases hk : key e = k
    · obtain ⟨c', hc'eq, -, -⟩ := maxCombine_of_match key meas k (some c) e hk
      rw [hc'eq] at h
      exact ih c' h
    · rw [maxCombine_of_ne key meas k (some c) e hk] at h
      exact ih c h

theorem maxFold_none_iff {α : Type} (key : α → String) (meas : α → Int)
    (k : String) : ∀ (l : List α),
    l.foldl (maxCombine key meas k) none = none ↔ ∀ e ∈ l, key e ≠ k := by
  intro l
  induction l with
  | nil => simp
  | cons e rest ih =>
    rw [List.foldl_cons]
    by_cases hk : key e = k
    · obtain ⟨c', hc'eq, -, -⟩ := maxCombine_of_match key meas k none e hk
      rw [hc'eq]
      constructor
      · intro h
        exact absurd h (maxFold_ne_none key meas k rest c')
      · intro h
        exact absurd hk (h e (List.mem_cons_self e rest))
    · rw [maxCombine_of_ne key meas k none e hk, ih]
      constructor
      · intro h e' he'
        rcases List.mem_cons.mp he' with h2 | h2
        · exact h2 ▸ hk
        · exact h e' h2
      · intro h e' he'
        exact h e' (List.mem_cons_of_mem e he')

end LSMKV

namespace LSMKV

/-! ## Structural invariants of the max-by-key fold -/

/-- Keys stored by the fold name their value's key, and are distinct. -/
def alWellFormed {α : Type} (key : α → String)
    (m : List (String × α)) : Prop :=
  (∀ p ∈ m, key p.2 = p.1) ∧ (m.map Prod.fst).Nodup

theorem alStore_consistent {α : Type} (key : α → String) (k : String)
    (v : α) (hv : key v = k) : ∀ (m : List (String × α)),
    (∀ p ∈ m, key p.2 = p.1) → ∀ p ∈ alStore k v m, key p.2 = p.1 := by
  intro m
  induction m with
  | nil =>
    intro _ p hp
    rw [alStore] at hp
    rcases List.mem_singleton.mp hp with h
    rw [h]
    exact hv
  | cons q rest ih =>
    intro hcons p hp
    obtain ⟨k', v'⟩ := q
    by_cases h : k' = k
    · rw [alStore, if_pos h] at hp
      rcases List.mem_cons.mp hp with h2 | h2
      · rw [h2]
        show key v = k'
        rw [hv, h]
      · exact hcons p (List.mem_cons_of_mem _ h2)
    · rw [alStore, if_neg h] at hp
      rcases List.mem_cons.mp hp with h2 | h2
      · exact hcons p (h2 ▸ List.mem_cons_self _ _)
      · exact ih (fun q hq => hcons q (List.mem_cons_of_mem _ hq)) p h2

theorem alWellFormed_alStore {α : Type} (key : α → String) (k : String)
    (v : α) (m : List (String × α)) (hwf : alWellFormed key m)
    (hv : key v = k) (hmem : (alLookup k m).isSome) :
    alWellFormed key (alStore k v m) := by
  obtain ⟨hcons, hnodup⟩ := hwf
  refine ⟨alStore_consistent key k v hv m hcons, ?_⟩
  rw [alStore_keys, if_pos hmem]
  exact hnodup

theorem alWellFormed_maxByStep {α : Type} (key : α → String)
    (meas : α → Int) (m : List (String × α)) (e : α)
    (hwf : alWellFormed key m) :
    alWellFormed key (maxByStep key meas m e) := by
  cases h : alLookup (key e) m with
  | none =>
    rw [maxByStep_eq_none key meas h]
    obtain ⟨hcons, hnodup⟩ := hwf
    constructor
    · intro p hp
      rcases List.mem_append.mp hp with h2 | h2
      · exact hcons p h2
      · rcases List.mem_singleton.mp h2 with h3
        rw [h3]
    · rw [List.map_append, List.nodup_append]
      refine ⟨hnodup, List.nodup_singleton _, ?_⟩
      intro a ha hb
      rw [List.map_singleton, List.mem_singleton] at hb
      subst hb
      exact ((alLookup_eq_none (key e) m).mp h) ha
  | some cur =>
    rw [maxByStep_eq_some key meas h]
    by_cases hm : meas cur < meas e
    · rw [if_pos hm]
      exact alWellFormed_alStore key (key e) e m hwf rfl (by rw [h]; rfl)
    · rw [if_neg hm]
      exact hwf

theorem alWellFormed_maxByKeyFold {α : Type} (key : α → String)
    (meas : α → Int) (l : List α) :
    alWellFormed key (maxByKeyFold key meas l) := by
  rw [maxByKeyFold]
  have : ∀ (l' : List α) (m : List (String × α)), alWellFormed key m →
      alWellFormed key (l'.foldl (maxByStep key meas) m) := by
    intro l'
    induction l' with
    | nil => intro m hm; exact hm
    | cons e rest ih =>
      intro m hm
      rw [List.foldl_cons]
      exact ih _ (alWellFormed_maxByStep key meas m e hm)
  exact this l [] ⟨by simp, List.nodup_nil⟩

theorem alLookup_of_mem_nodup {α : Type} {k : String} {v : α} :
    ∀ {m : List (String × α)}, (m.map Prod.fst).Nodup → (k, v) ∈ m →
      alLookup k m = some v := by
  intro m
  induction m with
  | nil => intro _ h; simp at h
  | cons p rest ih =>
    intro hnodup hmem
    obtain ⟨k', v'⟩ := p
    rcases List.mem_cons.mp hmem with h | h
    · injection h with h1 h2
      subst h1; subst h2
      simp [alLookup]
    · have hk : k' ≠ k := by
        intro hc
        subst hc
        have : k' ∈ rest.map Prod.fst :=
          List.mem_map.mpr ⟨(k', v), h, rfl⟩
        exact (List.nodup_cons.mp hnodup).1 this
      rw [alLookup, if_neg hk]
      exact ih (List.nodup_cons.mp hnodup).2 h

theorem mem_of_alLookup {α : Type} {k : String} {v : α} :
    ∀ {m : List (String × α)}, alLookup k m = some v → (k, v) ∈ m := by
  intro m
  induction m with
  | nil => intro h; cases h
  | cons p rest ih =>
    intro h
    obtain ⟨k', v'⟩ := p
    by_cases hk : k' = k
    · rw [alLookup, if_pos hk] at h
      injection h with h2
      subst hk; subst h2
      exact List.mem_cons_self _ _
    · rw [alLookup, if_neg hk] at h
      exact List.mem_cons_of_mem _ (ih h)

/-- Every value stored by the fold is its own key's lookup result. -/
theorem maxByKeyFold_values_lookup {α : Type} (key : α → String)
    (meas : α → Int) (l : List α) (e : α)
    (hmem : e ∈ (maxByKeyFold key meas l).map Prod.snd) :
    alLookup (key e) (maxByKeyFold key meas l) = some e := by
  obtain ⟨p, hp, hpe⟩ := List.mem_map.mp hmem
  obtain ⟨hcons, hnodup⟩ := alWellFormed_maxByKeyFold key meas l
  have hkey : key e = p.1 := by rw [← hpe]; exact hcons p hp
  rw [hkey]
  refine alLookup_of_mem_nodup hnodup ?_
  rw [← hpe, Prod.mk.eta]
  exact hp

theorem maxByKeyFold_lookup_mem_values {α : Type} (key : α → String)
    (meas : α → Int) (l : List α) (k : String) (r : α)
    (h : alLookup k (maxByKeyFold key meas l) = some r) :
    r ∈ (maxByKeyFold key meas l).map Prod.snd :=
  List.mem_map.mpr ⟨(k, r), mem_of_alLookup h, rfl⟩

/-- `_clear_wal_for_flushed_data`'s keep predicate: keep a record whose
key has no flushed entry, or whose timestamp strictly exceeds the flushed
maximum for its key.  (Python stores the per-key maximal timestamp in
`flushed_ts`; the model's fold stores the maximal-timestamp entry and
reads its timestamp — the same number.) -/
def keepRecord (flushed : List Entry) (r : WALRecord) : Bool :=
  match alLookup r.key (maxByKeyFold Entry.key Entry.timestamp flushed) with
  | none => true
  | some cur => decide (cur.timestamp < r.timestamp)

/-- `LSMKVStore._clear_wal_for_flushed_data`. -/
def clearWalForFlushedData (file : List (Option WALRecord))
    (flushed : List Entry) : List (Option WALRecord) :=
  walReplaceWithFiltered file (keepRecord flushed)

theorem walReadAll_replace (file : List (Option WALRecord))
    (pred : WALRecord → Bool) :
    walReadAll (walReplaceWithFiltered file pred) =
      (walReadAll file).filter pred := by
  rw [walReplaceWithFiltered]
  generalize (walReadAll file).filter pred = l
  induction l with
  | nil => rfl
  | cons r rest ih =>
    simp only [List.map_cons, walReadAll, List.filterMap_cons, id] at ih ⊢
    rw [ih]

theorem keepRecord_eq_true (flushed : List Entry) (r : WALRecord) :
    keepRecord flushed r = true ↔
      (∀ e ∈ flushed, e.key ≠ r.key) ∨
      (∀ e ∈ flushed, e.key = r.key → e.timestamp < r.timestamp) := by
  rw [keepRecord]
  cases h : alLookup r.key (maxByKeyFold Entry.key Entry.timestamp flushed)
    with
  | none =>
    rw [alLookup_maxByKeyFold] at h
    simp only [true_iff]
    exact Or.inl ((maxFold_none_iff Entry.key Entry.timestamp r.key
      flushed).mp h)
  | some cur =>
    rw [alLookup_maxByKeyFold] at h
    obtain ⟨hkey, hmem, hall, -⟩ :=
      maxFold_some_spec Entry.key Entry.timestamp r.key flushed none cur
        (fun c hc => by cases hc) h
    have hmem' : cur ∈ flushed := by
      rcases hmem with h2 | h2
      · exact h2
      · cases h2
    rw [decide_eq_true_eq]
    constructor
    · intro hlt
      refine Or.inr ?_
      intro e he hek
      exact lt_of_le_of_lt (hall e he hek) hlt
    · intro hor
      rcases hor with hnone | hts
      · exact absurd hkey (hnone cur hmem')
      · exact hts cur hmem' hkey

/-- Claim C6: `replace_with_filtered` leaves the WAL holding exactly the
previously stored well-formed records that satisfy the predicate, in
their original order, losing and duplicating none; and the facade's flush
predicate keeps exactly the records whose key has no flushed entry or
whose timestamp strictly exceeds the maximum flushed timestamp for their
key. -/
theorem wal_replace_with_filtered (file : List (Option WALRecord))
    (pred : WALRecord → Bool) (flushed : List Entry) :
    (walReadAll (walReplaceWithFiltered file pred) =
      (walReadAll file).filter pred) ∧
    ((walReadAll (walReplaceWithFiltered file pred)).Sublist
      (walReadAll file)) ∧
    (∀ r, r ∈ walReadAll (walReplaceWithFiltered file pred) ↔
      r ∈ walReadAll file ∧ pred r = true) ∧
    (∀ r, (walReadAll (walReplaceWithFiltered file pred)).count r =
      if pred r then (walReadAll file).count r else 0) ∧
    (∀ r, keepRecord flushed r = true ↔
      (∀ e ∈ flushed, e.key ≠ r.key) ∨
      (∀ e ∈ flushed, e.key = r.key → e.timestamp < r.timestamp)) := by
  refine ⟨walReadAll_replace file pred, ?_, ?_, ?_,
    fun r => keepRecord_eq_true flushed r⟩
  · rw [walReadAll_replace]
    exact List.filter_sublist _
  · intro r
    rw [walReadAll_replace]
    simp [List.mem_filter]
  · intro r
    rw [walReadAll_replace]
    by_cases hp : pred r
    · rw [if_pos hp, List.count_filter hp]
    · rw [if_neg hp, List.count_eq_zero]
      intro hc
      exact hp ((List.mem_filter.mp hc).2)

/-! ## Background compaction merge (src/lsmkv/core/sstable_manager.py) -/

/-- An on-disk run owned by the SSTable manager, as the manager sees it:
its id and the entries of its data file. -/
structure Run where
  id : Nat
  entries : List Entry
deriving DecidableEq, Repr

/-- The `key_map` built by `_background_compact` (and by
`_compact_level_to_next` and `compact`): per key, the entry with the
maximum timestamp; only a strictly larger timestamp replaces, so equal
timestamps keep the earliest occurrence. -/
def compactionKeyMap (all_entries : List Entry) : List (String × Entry) :=
  maxByKeyFold Entry.key Entry.timestamp all_entries

/-- `_background_compact`'s bottommost test: no level strictly below the
destination currently holds any run (Python truthiness of the run
list). -/
def isBottommost (levels : List (Nat × List Run)) (next_level : Nat) :
    Bool :=
  !(levels.any (fun p => decide (next_level < p.1) && !p.2.isEmpty))

/-- The merge of `_background_compact` step 2: deduplicate by maximum
timestamp, drop tombstones exactly when the destination is bottommost,
and sort the survivors by key (Python's stable
`list.sort(key=lambda e: e.key)`, modelled by the stable
`List.insertionSort`; the deduplicated keys are unique, so stability is
moot). -/
def compactionMerge (source_entries next_entries : List Entry)
    (bottommost : Bool) : List Entry :=
  let all_entries := source_entries ++ next_entries
  let key_map := compactionKeyMap all_entries
  let merged := if bottommost then
      (key_map.map Prod.snd).filter (fun e => !e.is_deleted)
    else key_map.map Prod.snd
  List.insertionSort (fun a b => keyLe a.key b.key = true) merged

theorem keyLe_key_trans (a b c : Entry)
    (hab : keyLe a.key b.key = true) (hbc : keyLe b.key c.key = true) :
    keyLe a.key c.key = true :=
  (keyLe_iff _ _).mpr (le_trans ((keyLe_iff _ _).mp hab)
    ((keyLe_iff _ _).mp hbc))

theorem keyLe_key_total (a b : Entry) :
    (keyLe a.key b.key || keyLe b.key a.key) = true := by
  rcases le_total a.key b.key with h | h
  · rw [(keyLe_iff _ _).mpr h]
    rfl
  · rw [(keyLe_iff _ _).mpr h]
    simp

theorem compactionMerge_perm (source_entries next_entries : List Entry)
    (b : Bool) :
    (compactionMerge source_entries next_entries b).Perm
      (if b then
        ((compactionKeyMap (source_entries ++ next_entries)).map
          Prod.snd).filter (fun e => !e.is_deleted)
      else
        (compactionKeyMap (source_entries ++ next_entries)).map
          Prod.snd) := by
  cases b <;> exact List.perm_insertionSort _ _

/-- Claim C4: the background compaction of level L into L+1 keeps, for
every key of the snapshotted source and next-level entries, an input
entry with the maximum timestamp for that key; it drops tombstones
exactly when no level numbered greater than L+1 currently holds any run,
retaining them otherwise; and the surviving entries are sorted ascending
by key. -/
theorem background_compaction_merge
    (source_entries next_entries : List Entry)
    (levels : List (Nat × List Run)) (next_level : Nat) (b : Bool) :
    (isBottommost levels next_level = true ↔
      ∀ p ∈ levels, next_level < p.1 → p.2 = []) ∧
    (∀ e ∈ compactionMerge source_entries next_entries b,
      e ∈ source_entries ++ next_entries ∧
      ∀ e' ∈ source_entries ++ next_entries, e'.key = e.key →
        e'.timestamp ≤ e.timestamp) ∧
    (∀ e' ∈ source_entries ++ next_entries,
      ∃ e ∈ (compactionKeyMap (source_entries ++ next_entries)).map
        Prod.snd, e.key = e'.key) ∧
    ((compactionMerge source_entries next_entries b).Perm
      (if b then
        ((compactionKeyMap (source_entries ++ next_entries)).map
          Prod.snd).filter (fun e => !e.is_deleted)
      else
        (compactionKeyMap (source_entries ++ next_entries)).map
          Prod.snd)) ∧
    ((compactionMerge source_entries next_entries b).Pairwise
      (fun a b => a.key ≤ b.key)) := by
  refine ⟨?_, ?_, ?_, compactionMerge_perm source_entries next_entries b, ?_⟩
  · rw [isBottommost, Bool.not_eq_true']
    rw [← Bool.not_eq_true, List.any_eq_true]
    constructor
    · intro h p hp hlt
      by_contra hne
      exact h ⟨p, hp, by simp [hlt, List.isEmpty_iff, hne]⟩
    · intro h ⟨p, hp, hcond⟩
      simp only [Bool.and_eq_true, decide_eq_true_eq, Bool.not_eq_true',
        List.isEmpty_eq_false] at hcond
      exact hcond.2 (h p hp hcond.1)
  · intro e he
    have hperm := compactionMerge_perm source_entries next_entries b
    have hmem : e ∈ (compactionKeyMap (source_entries ++ next_entries)).map
        Prod.snd := by
      have := hperm.mem_iff.mp he
      cases b with
      | false => exact this
      | true => exact (List.mem_filter.mp this).1
    have hlook := maxByKeyFold_values_lookup Entry.key Entry.timestamp
      (source_entries ++ next_entries) e hmem
    unfold compactionKeyMap at hlook
    rw [alLookup_maxByKeyFold] at hlook
    obtain ⟨-, hmem2, hall, -⟩ := maxFold_some_spec Entry.key Entry.timestamp
      e.key (source_entries ++ next_entries) none e
      (fun c hc => by cases hc) hlook
    refine ⟨?_, ?_⟩
    · rcases hmem2 with h | h
      · exact h
      · cases h
    · intro e' he' hk
      exact hall e' he' hk
  · intro e' he'
    cases hlook : alLookup e'.key
        (compactionKeyMap (source_entries ++ next_entries)) with
    | none =>
      unfold compactionKeyMap at hlook
      rw [alLookup_maxByKeyFold] at hlook
      exact absurd rfl ((maxFold_none_iff Entry.key Entry.timestamp e'.key
        (source_entries ++ next_entries)).mp hlook e' he')
    | some r =>
      have hr := hlook
      unfold compactionKeyMap at hr
      rw [alLookup_maxByKeyFold] at hr
      obtain ⟨hkey, -, -, -⟩ := maxFold_some_spec Entry.key Entry.timestamp
        e'.key (source_entries ++ next_entries) none r
        (fun c hc => by cases hc) hr
      exact ⟨r, maxByKeyFold_lookup_mem_values Entry.key Entry.timestamp
        (source_entries ++ next_entries) e'.key r hlook, hkey⟩
  · haveI htot : IsTotal Entry (fun a b => keyLe a.key b.key = true) :=
      ⟨fun a b => by
        rcases le_total a.key b.key with h | h
        · exact Or.inl ((keyLe_iff _ _).mpr h)
        · exact Or.inr ((keyLe_iff _ _).mpr h)⟩
    haveI htr : IsTrans Entry (fun a b => keyLe a.key b.key = true) :=
      ⟨fun a b c hab hbc => keyLe_key_trans a b c hab hbc⟩
    have hsorted := List.sorted_insertionSort
      (fun a b : Entry => keyLe a.key b.key = true)
      (if b then
        ((compactionKeyMap (source_entries ++ next_entries)).map
          Prod.snd).filter (fun e => !e.is_deleted)
      else
        (compactionKeyMap (source_entries ++ next_entries)).map Prod.snd)
    have heq : compactionMerge source_entries next_entries b =
        List.insertionSort (fun a b : Entry => keyLe a.key b.key = true)
        (if b then
          ((compactionKeyMap (source_entries ++ next_entries)).map
            Prod.snd).filter (fun e => !e.is_deleted)
        else
          (compactionKeyMap (source_entries ++ next_entries)).map
            Prod.snd) := by
      cases b <;> rfl
    rw [heq]
    exact hsorted.imp (fun h => (keyLe_iff _ _).mp h)

/-- Claim C2 (failing-input evaluation): `MemtableManager.get` calls
`Memtable.get` without `include_tombstones=True`, so a tombstone held by
the active memtable is filtered out and `get` returns `None` instead of
the tombstone entry; with an older live entry in an immutable memtable,
`get` even returns that stale live entry although a newer tombstone
exists in memory.  This contradicts the documented behaviour (the facade
comment `MemtableManager now returns tombstones to stop search
propagation` and the spec's read-path description). -/
theorem memtable_manager_get_drops_tombstones :
    (((MemtableManager.init 10 4 10485760).deleteEntry
        ⟨"k", none, 2, true⟩).1.active.key_map =
      [("k", ⟨"k", none, 2, true⟩)]) ∧
    (((MemtableManager.init 10 4 10485760).deleteEntry
        ⟨"k", none, 2, true⟩).1.get "k" = none) ∧
    ({ ((MemtableManager.init 10 4 10485760).deleteEntry
          ⟨"k", none, 2, true⟩).1 with
        immutable_queue :=
          [⟨(Memtable.empty 10).put ⟨"k", some "v", 1, false⟩, 0⟩] }
      : MemtableManager).get "k" = some ⟨"k", some "v", 1, false⟩ := by
  refine ⟨rfl, rfl, ?_⟩
  rfl

/-- Witness for C5: writing three sorted entries and reading a present key
through the full path. -/
theorem sstable_write_then_get_witness :
    (SSTable.write 7 [] 2 = Except.error "Cannot write empty SSTable") ∧
    ∀ d md, SSTable.write 7 c5Entries 2 = Except.ok (d, md) →
      (((∃ e ∈ c5Entries, e.key = "c") →
          ∃ e, SSTable.getData d c5Bloom "c" = some e ∧ e ∈ c5Entries ∧
            e.key = "c") ∧
        ((∀ e ∈ c5Entries, e.key ≠ "c") →
          SSTable.getData d c5Bloom "c" = none)) :=
  sstable_write_then_get 7 c5Entries 2 c5Bloom "c"
    (by
      refine List.Pairwise.cons ?_
        (List.Pairwise.cons ?_ (List.pairwise_singleton _ _)) <;>
      · intro e he
        fin_cases he <;> exact (keyLe_iff _ _).mp (by decide))
    (by intro e he; fin_cases he <;> decide)

/-! ## Typed errors and argument validation (src/lsmkv/core/kvstore.py) -/

inductive KVError where
  | typeError (msg : String)
  | valueError (msg : String)
  | runtimeError (msg : String)
deriving DecidableEq, Repr

/-- A Python value as far as validation inspects it: a string, or any
non-string object (only `isinstance(x, str)` ever looks at a
non-string). -/
inductive PyObj where
  | pyStr (s : String)
  | pyOther
deriving DecidableEq, Repr

/-- `LSMKVStore._validate_key`.  Python measures `len(key)`, the number
of characters.  Message texts abbreviated. -/
def validateKey : PyObj → Except KVError String
  | .pyOther => .error (.typeError "Key must be a string")
  | .pyStr s =>
    if s.length = 0 then .error (.valueError "Key cannot be empty")
    else if 1024 < s.length then .error (.valueError "Key exceeds max size")
    else .ok s

/-- `LSMKVStore._validate_value`: `len(value)` characters against 1 MiB. -/
def validateValue : PyObj → Except KVError String
  | .pyOther => .error (.typeError "Value must be a string")
  | .pyStr s =>
    if 1048576 < s.length then
      .error (.valueError "Value exceeds max size")
    else .ok s

/-! ## SSTable manager state (src/lsmkv/core/sstable_manager.py)

The thread pools (one compaction worker, one manifest-reload worker) are
flattened to synchronous execution: a submitted compaction runs to
completion before the submitting call returns, which realises the
sequential semantics the claims quantify over.  Manifests mirror the
in-memory `levels` dict exactly (every mutation updates both under the
same lock), so the model carries only `levels`; the global manifest's
monotonic counter is `next_sstable_id`. -/

structure SSTableManager where
  levels : List (Nat × List Run)
  next_sstable_id : Nat
deriving DecidableEq, Repr

/-- Python `self.levels.get(level)` / `level in self.levels`. -/
def lvlLookup (lvl : Nat) : List (Nat × List Run) → Option (List Run)
  | [] => none
  | (l, rs) :: rest => if l = lvl then some rs else lvlLookup lvl rest

/-- Python `self.levels[level] = rs` on an existing key (in-place). -/
def lvlStore (lvl : Nat) (rs : List Run) :
    List (Nat × List Run) → List (Nat × List Run)
  | [] => [(lvl, rs)]
  | (l, rs') :: rest =>
    if l = lvl then (l, rs) :: rest else (l, rs') :: lvlStore lvl rs rest

/-- `if level not in self.levels: self.levels[level] = []` followed by
`self.levels[level].append(run)`. -/
def levelsAppendRun (levels : List (Nat × List Run)) (lvl : Nat)
    (r : Run) : List (Nat × List Run) :=
  match lvlLookup lvl levels with
  | none => levels ++ [(lvl, [r])]
  | some rs => lvlStore lvl (rs ++ [r]) levels

/-- `self.levels[level] = [s for s in self.levels[level] if s.sstable_id
not in ids]`. -/
def removeRuns (levels : List (Nat × List Run)) (lvl : Nat)
    (ids : List Nat) : List (Nat × List Run) :=
  match lvlLookup lvl levels with
  | none => levels
  | some rs => lvlStore lvl (rs.filter (fun r => !(ids.contains r.id))) levels

/-- Python `max(self.levels.keys())` (0 when empty, as in
`_auto_compact`). -/
def maxLevel (levels : List (Nat × List Run)) : Nat :=
  (levels.map Prod.fst).foldl max 0

/-- Runtime configuration of the store.  `soft_max_l0`,
`soft_max_entries` and `soft_max_size` are Python's
`int(hard_limit * soft_limit_ratio)` values (float arithmetic, performed
by the host); `run_size_bytes` is the on-disk size of a run's directory
(data file, bloom filter file, sparse index file), environment data the
model takes as a parameter. -/
structure Config where
  memtable_size : Nat
  max_immutable : Nat
  max_memory_bytes : Nat
  level_ratio : Nat
  base_level_entries : Nat
  max_l0_sstables : Nat
  soft_max_l0 : Nat
  soft_max_entries : Nat → Nat
  soft_max_size : Nat → Nat
  run_size_bytes : List Entry → Nat

/-- Entry count of a level, as `_get_level_stats` reads it from the level
manifest (kept in sync with the in-memory runs). -/
def levelEntriesCount (rs : List Run) : Nat :=
  (rs.map (fun r => r.entries.length)).sum

def levelSizeBytes (cfg : Config) (rs : List Run) : Nat :=
  (rs.map (fun r => cfg.run_size_bytes r.entries)).sum

/-- `_should_compact_level`: soft-limit checks (L0 run count, entry
count, byte size). -/
def shouldCompactLevel (cfg : Config) (m : SSTableManager) (lvl : Nat) :
    Bool :=
  match lvlLookup lvl m.levels with
  | none => false
  | some rs =>
    if rs.isEmpty then false
    else
      (decide (lvl = 0) && decide (cfg.soft_max_l0 ≤ rs.length)) ||
      decide (cfg.soft_max_entries lvl ≤ levelEntriesCount rs) ||
      decide (cfg.soft_max_size lvl ≤ levelSizeBytes cfg rs)

/-- `_background_compact` (with its `_take_compaction_snapshot` and
`_finalize_compaction`), flattened to synchronous execution; `fuel`
bounds the cascade depth (each cascade moves one level down, so any fuel
beyond the deepest level is enough). -/
def backgroundCompact (cfg : Config) :
    Nat → SSTableManager → Nat → SSTableManager
  | 0, m, _ => m
  | fuel + 1, m, source_level =>
    match lvlLookup source_level m.levels with
    | none => m
    | some source_runs =>
      if source_runs.isEmpty then m
      else
        let next_level := source_level + 1
        let source_ids := source_runs.map Run.id
        let next_runs := (lvlLookup next_level m.levels).getD []
        let next_ids := next_runs.map Run.id
        let source_entries := (source_runs.map Run.entries).join
        let next_entries := (next_runs.map Run.entries).join
        let bottom := isBottommost m.levels next_level
        let merged := compactionMerge source_entries next_entries bottom
        let retired := removeRuns (removeRuns m.levels source_level
          source_ids) next_level next_ids
        if merged.isEmpty then { m with levels := retired }
        else
          let m' : SSTableManager :=
            ⟨levelsAppendRun retired next_level ⟨m.next_sstable_id, merged⟩,
             m.next_sstable_id + 1⟩
          if shouldCompactLevel cfg m' next_level then
            backgroundCompact cfg fuel m' next_level
          else m'

/-- `_auto_compact`: walk levels 0..max and compact the eligible ones
(submissions run in order on the single compaction worker). -/
def autoCompact (cfg : Config) (fuel : Nat) (m : SSTableManager) :
    SSTableManager :=
  (List.range (maxLevel m.levels + 1)).foldl
    (fun acc lvl =>
      if shouldCompactLevel cfg acc lvl then
        backgroundCompact cfg fuel acc lvl
      else acc) m

/-- `SSTableManager.add_sstable`: allocate the next run id, write the
run, publish it at the given level, and trigger auto-compaction outside
the lock when requested. -/
def addSSTable (cfg : Config) (fuel : Nat) (m : SSTableManager)
    (entries : List Entry) (level : Nat) (auto_compact : Bool) :
    Except KVError (SSTableManager × SSTableMetadata) :=
  match SSTable.write m.next_sstable_id entries 4 with
  | .error _ =>
    .error (.valueError "Cannot create SSTable from empty entries")
  | .ok (_, md) =>
    let r : Run := ⟨m.next_sstable_id, entries⟩
    let m' : SSTableManager :=
      ⟨levelsAppendRun m.levels level r, m.next_sstable_id + 1⟩
    .ok (if auto_compact then autoCompact cfg fuel m' else m', md)

/-- `SSTable.get` as the manager's read path uses it: the bloom filter is
instantiated with exact key membership (a legitimate bloom instance — no
false negatives and, on this input, no false positives; by claim C5's
theorem any no-false-negative bloom yields the same result). -/
def runGet (r : Run) (k : String) : Option Entry :=
  SSTable.getData ⟨r.entries, buildSparseIndex r.entries 4⟩
    (fun s => r.entries.any (fun e => e.key == s)) k

/-- `LazySSTable.get`: metadata key-range short-circuit (min = first key,
max = last key of the sorted run), then the run's `get`. -/
def lazyGet (r : Run) (k : String) : Option Entry :=
  match r.entries with
  | [] => none
  | e0 :: rest =>
    if keyLt k e0.key || keyLt (List.getLastD rest e0).key k then none
    else runGet r k

/-- `SSTableManager.get`: levels in ascending order, runs within a level
newest-to-oldest, first hit wins. -/
def sstManagerGet (m : SSTableManager) (k : String) : Option Entry :=
  (List.insertionSort (fun a b : Nat × List Run => a.1 ≤ b.1)
    m.levels).findSome?
    (fun p => p.2.reverse.findSome? (fun r => lazyGet r k))

/-- `SSTableManager.get_all_entries`: all entries, levels ascending, runs
in list order. -/
def getAllEntries (m : SSTableManager) : List Entry :=
  ((List.insertionSort (fun a b : Nat × List Run => a.1 ≤ b.1)
    m.levels).map
    (fun p => (p.2.map Run.entries).join)).join

/-- `SSTableManager.compact` (full compaction, default target level):
deduplicate everything by maximum timestamp, drop tombstones
unconditionally, sort, publish the new run, then retire every old
run. -/
def managerCompact (cfg : Config) (m : SSTableManager) :
    Except KVError (SSTableManager × SSTableMetadata) :=
  let total := (m.levels.map (fun p => p.2.length)).sum
  if total = 0 then .error (.valueError "No SSTables to compact")
  else
    let max_level := maxLevel m.levels
    let target_level := if max_level = 0 then 1 else max_level
    let all_entries := getAllEntries m
    if all_entries.isEmpty then
      .error (.valueError "No entries found in SSTables")
    else
      let compacted := ((compactionKeyMap all_entries).map
        Prod.snd).filter (fun e => !e.is_deleted)
      if compacted.isEmpty then
        .error (.valueError "No live entries after compaction (all deleted)")
      else
        let sorted := List.insertionSort
          (fun a b => keyLe a.key b.key = true) compacted
        let old := m.levels
        match addSSTable cfg 0 m sorted target_level false with
        | .error e => .error e
        | .ok (m', md) =>
          .ok ({ m' with levels :=
            (old.foldl (fun lv p => removeRuns lv p.1 (p.2.map Run.id))
              m'.levels) }, md)

/-! ## Store facade (src/lsmkv/core/kvstore.py) -/

structure LSMKVStore where
  wal : List (Option WALRecord)
  mgr : MemtableManager
  sst : SSTableManager
  last_timestamp : Int
  closed : Bool
deriving DecidableEq

/-- A freshly constructed store on an empty data directory: empty WAL,
no manifests to load, WAL recovery replays nothing. -/
def initStore (cfg : Config) : LSMKVStore :=
  { wal := [],
    mgr := MemtableManager.init cfg.memtable_size cfg.max_immutable
      cfg.max_memory_bytes,
    sst := ⟨[], 0⟩,
    last_timestamp := 0,
    closed := false }

/-- `LSMKVStore._flush_memtable_to_sstable` (the flush-worker callback):
publish the memtable's entries as an L0 run (auto-compaction enabled),
then clear the flushed records from the WAL.  Exceptions inside the
worker are caught and logged, leaving the state unchanged. -/
def flushMemtableToSSTable (cfg : Config) (fuel : Nat) (st : LSMKVStore)
    (mt : Memtable) : LSMKVStore :=
  let entries := mt.get_all_entries
  if entries.isEmpty then st
  else
    match addSSTable cfg fuel st.sst entries 0 true with
    | .error _ => st
    | .ok (sst', _) =>
      { st with
        sst := sst'
        wal := clearWalForFlushedData st.wal entries }

/-- `LSMKVStore.put`: validate, reject when closed, then under the write
lock take a timestamp, append to the WAL and insert into the memtable
manager; a rotation-triggered flush submission runs its callback
next. -/
def kvPut (cfg : Config) (fuel : Nat) (st : LSMKVStore) (now : Int)
    (key value : PyObj) : Except KVError (LSMKVStore × Bool) :=
  match validateKey key with
  | .error e => .error e
  | .ok k =>
    match validateValue value with
    | .error e => .error e
    | .ok v =>
      if st.closed then .error (.runtimeError "KV store is closed")
      else
        let ts := (getTimestamp st.last_timestamp now).1
        let wal' := walAppend st.wal ⟨.PUT, k, some v, ts⟩
        let mp := st.mgr.putEntry ⟨k, some v, ts, false⟩
        let st' : LSMKVStore := { st with
          wal := wal'
          mgr := mp.1
          last_timestamp := ts }
        match mp.2 with
        | none => .ok (st', true)
        | some mt => .ok (flushMemtableToSSTable cfg fuel st' mt, true)

/-- `LSMKVStore.delete`: as `put`, writing a tombstone. -/
def kvDelete (cfg : Config) (fuel : Nat) (st : LSMKVStore) (now : Int)
    (key : PyObj) : Except KVError (LSMKVStore × Bool) :=
  match validateKey key with
  | .error e => .error e
  | .ok k =>
    if st.closed then .error (.runtimeError "KV store is closed")
    else
      let ts := (getTimestamp st.last_timestamp now).1
      let wal' := walAppend st.wal ⟨.DELETE, k, none, ts⟩
      let mp := st.mgr.deleteEntry ⟨k, none, ts, true⟩
      let st' : LSMKVStore := { st with
        wal := wal'
        mgr := mp.1
        last_timestamp := ts }
      match mp.2 with
      | none => .ok (st', true)
      | some mt => .ok (flushMemtableToSSTable cfg fuel st' mt, true)

/-- `LSMKVStore.get`: memtable manager first (a returned tombstone means
definitive absence), then the SSTable manager (same interpretation),
otherwise not found. -/
def kvGet (st : LSMKVStore) (key : PyObj) : Except KVError GetResult :=
  match validateKey key with
  | .error e => .error e
  | .ok k =>
    if st.closed then .error (.runtimeError "KV store is closed")
    else
      match st.mgr.get k with
      | some e =>
        if e.is_deleted then .ok ⟨k, none, false⟩
        else .ok ⟨k, e.value, true⟩
      | none =>
        match sstManagerGet st.sst k with
        | some e =>
          if e.is_deleted then .ok ⟨k, none, false⟩
          else .ok ⟨k, e.value, true⟩
        | none => .ok ⟨k, none, false⟩

/-- `LSMKVStore.flush`: synchronously rotate the active memtable (the
spec-modelled `flush_active_sync`), error when there is nothing to
flush, publish the entries as an L0 run, rewrite the WAL, and finally
drop the flushed immutable from the queue. -/
def kvFlush (cfg : Config) (fuel : Nat) (st : LSMKVStore) :
    Except KVError (SSTableMetadata × LSMKVStore) :=
  match st.mgr.flush_active_sync with
  | (none, _) => .error (.valueError "Cannot flush empty memtable")
  | (some im, mgr') =>
    match addSSTable cfg fuel st.sst im.memtable.get_all_entries 0 true with
    | .error e => .error e
    | .ok (sst', md) =>
      .ok (md,
        { st with
          wal := clearWalForFlushedData st.wal im.memtable.get_all_entries
          mgr := mgr'.remove_flushed_immutable im.sequence_number
          sst := sst' })

/-- `LSMKVStore.compact`: wait for background compactions (a no-op in
the synchronous model), then full compaction. -/
def kvCompact (cfg : Config) (st : LSMKVStore) :
    Except KVError (SSTableMetadata × LSMKVStore) :=
  match managerCompact cfg st.sst with
  | .error e => .error e
  | .ok (sst', md) => .ok (md, { st with sst := sst' })

/-- One client operation; writes carry the wall-clock reading their
timestamp call observes. -/
inductive Op where
  | putOp (key value : String) (now : Int)
  | deleteOp (key : String) (now : Int)
  | flushOp
  | compactOp

def stepOp (cfg : Config) (fuel : Nat) (st : LSMKVStore) :
    Op → Except KVError LSMKVStore
  | .putOp k v now => (kvPut cfg fuel st now (.pyStr k) (.pyStr v)).map Prod.fst
  | .deleteOp k now => (kvDelete cfg fuel st now (.pyStr k)).map Prod.fst
  | .flushOp => (kvFlush cfg fuel st).map Prod.snd
  | .compactOp => (kvCompact cfg st).map Prod.snd

def applyOps (cfg : Config) (fuel : Nat) (st : LSMKVStore) :
    List Op → Except KVError LSMKVStore
  | [] => .ok st
  | o :: rest => (stepOp cfg fuel st o).bind (fun st' => applyOps cfg fuel st' rest)

/-- The constructor-default configuration.  The soft limits are Python's
`int(hard × 0.85)` under float arithmetic (`int(4*0.85) = 3`,
`int(1000*0.85) = 849`, `int(1048576*0.85) = 891289`), and
`run_size_bytes` stands for the run directory's on-disk size; the
concrete evaluations below involve single-entry runs, whose real size is
a few hundred bytes — any value below the 891289-byte L0 soft limit
leaves the traces identical. -/
def defaultConfig : Config :=
  { memtable_size := 10
    max_immutable := 4
    max_memory_bytes := 10485760
    level_ratio := 10
    base_level_entries := 1000
    max_l0_sstables := 4
    soft_max_l0 := 3
    soft_max_entries := fun lvl => 849 * 10 ^ lvl
    soft_max_size := fun lvl => 891289 * 10 ^ lvl
    run_size_bytes := fun entries => 64 * entries.length }

/-- Claim C1 (failing-input evaluation): after `put("k","v"); flush();
delete("k")` the tombstone for `"k"` sits in the active memtable, but
`MemtableManager.get` filters tombstones out (the defect recorded for
claim C2), so `get("k")` falls through to the SSTable holding the old
value and reports `found=true` with the stale value `"v"`, where the
claim requires `found=false` after the last K-touching operation
`delete("k")`. -/
theorem get_after_flush_delete_returns_stale_value :
    (applyOps defaultConfig 8 (initStore defaultConfig)
        [Op.putOp "k" "v" 0, Op.flushOp, Op.deleteOp "k" 0]).bind
      (fun st => kvGet st (PyObj.pyStr "k")) =
    Except.ok ⟨"k", some "v", true⟩ := by
  rfl

theorem get_all_entries_length (m : Memtable) :
    m.get_all_entries.length = m.key_map.length := by
  rw [Memtable.get_all_entries, (List.perm_insertionSort _ _).length_eq,
    List.length_map]

theorem flush_active_sync_empty (m : MemtableManager)
    (h : m.active.key_map = []) : m.flush_active_sync = (none, m) := by
  rw [MemtableManager.flush_active_sync, if_pos (by rw [h]; rfl)]

theorem flush_active_sync_nonempty (m : MemtableManager)
    (h : m.active.key_map ≠ []) :
    m.flush_active_sync = (some ⟨m.active, m.sequence_number⟩,
      { m with
        sequence_number := m.sequence_number + 1
        total_rotations := m.total_rotations + 1
        immutable_queue :=
          m.immutable_queue ++ [⟨m.active, m.sequence_number⟩]
        active := Memtable.empty m.memtable_size }) := by
  rw [MemtableManager.flush_active_sync,
    if_neg (by simp [List.isEmpty_iff, h])]

/-- Claim C3 (with `flush_active_sync` modelled from the spec, §4.6):
`flush()` on a store whose active memtable holds at least one entry
rotates the active memtable (leaving it empty), writes its entries to a
new run whose metadata it returns, and raises exactly when the active
memtable is empty. -/
theorem flush_writes_run_and_errors_iff_empty (cfg : Config) (fuel : Nat)
    (st : LSMKVStore) :
    (st.mgr.active.key_map = [] →
      kvFlush cfg fuel st =
        Except.error (KVError.valueError "Cannot flush empty memtable")) ∧
    (st.mgr.active.key_map ≠ [] →
      ∃ md st', kvFlush cfg fuel st = Except.ok (md, st') ∧
        st'.mgr.active.key_map = [] ∧
        md.sstable_id = st.sst.next_sstable_id ∧
        md.num_entries = st.mgr.active.key_map.length ∧
        ∃ d, SSTable.write st.sst.next_sstable_id
          st.mgr.active.get_all_entries 4 = Except.ok (d, md)) := by
  constructor
  · intro h
    unfold kvFlush
    rw [flush_active_sync_empty st.mgr h]
  · intro h
    obtain ⟨e0, rest, hent⟩ :
        ∃ e0 rest, st.mgr.active.get_all_entries = e0 :: rest := by
      cases hge : st.mgr.active.get_all_entries with
      | nil =>
        exfalso
        have hlen := get_all_entries_length st.mgr.active
        rw [hge] at hlen
        exact h (List.length_eq_zero.mp hlen.symm)
      | cons a b => exact ⟨a, b, rfl⟩
    have hw : SSTable.write st.sst.next_sstable_id
        st.mgr.active.get_all_entries 4 =
        Except.ok (⟨e0 :: rest, buildSparseIndex (e0 :: rest) 4⟩,
          ⟨st.sst.next_sstable_id, (e0 :: rest).length, e0.key,
            (List.getLastD rest e0).key⟩) := by
      rw [hent]
      rfl
    have hadd : addSSTable cfg fuel st.sst
        st.mgr.active.get_all_entries 0 true =
        Except.ok (autoCompact cfg fuel
          ⟨levelsAppendRun st.sst.levels 0
            ⟨st.sst.next_sstable_id, st.mgr.active.get_all_entries⟩,
           st.sst.next_sstable_id + 1⟩,
          ⟨st.sst.next_sstable_id, (e0 :: rest).length, e0.key,
            (List.getLastD rest e0).key⟩) := by
      unfold addSSTable
      rw [hw]
      rfl
    have hkv : kvFlush cfg fuel st = Except.ok
        (⟨st.sst.next_sstable_id, (e0 :: rest).length, e0.key,
            (List.getLastD rest e0).key⟩,
         { st with
           wal := clearWalForFlushedData st.wal
             st.mgr.active.get_all_entries
           mgr := MemtableManager.remove_flushed_immutable
             { st.mgr with
               sequence_number := st.mgr.sequence_number + 1
               total_rotations := st.mgr.total_rotations + 1
               immutable_queue := st.mgr.immutable_queue ++
                 [⟨st.mgr.active, st.mgr.sequence_number⟩]
               active := Memtable.empty st.mgr.memtable_size }
             st.mgr.sequence_number
           sst := autoCompact cfg fuel
             ⟨levelsAppendRun st.sst.levels 0
               ⟨st.sst.next_sstable_id, st.mgr.active.get_all_entries⟩,
              st.sst.next_sstable_id + 1⟩ }) := by
      unfold kvFlush
      rw [flush_active_sync_nonempty st.mgr h]
      dsimp only
      rw [hadd]
    refine ⟨_, _, hkv, rfl, rfl, ?_, ⟨_, hw⟩⟩
    rw [← hent, get_all_entries_length]

set_option maxRecDepth 10000 in
/-- Witness for C3 at a concrete store holding one entry. -/
theorem flush_writes_run_witness :
    ((({ initStore defaultConfig with
        mgr := ((MemtableManager.init 10 4 10485760).putEntry
          ⟨"a", some "1", 5, false⟩).1 } : LSMKVStore).mgr.active.key_map
        ≠ []) ∧
     ∃ md st', kvFlush defaultConfig 8
        ({ initStore defaultConfig with
          mgr := ((MemtableManager.init 10 4 10485760).putEntry
            ⟨"a", some "1", 5, false⟩).1 } : LSMKVStore) =
          Except.ok (md, st') ∧
        st'.mgr.active.key_map = [] ∧
        md.sstable_id = 0 ∧
        md.num_entries = 1 ∧
        ∃ d, SSTable.write 0
          (({ initStore defaultConfig with
            mgr := ((MemtableManager.init 10 4 10485760).putEntry
              ⟨"a", some "1", 5, false⟩).1 } :
            LSMKVStore).mgr.active.get_all_entries) 4 =
          Except.ok (d, md)) := by
  refine ⟨by decide, ?_⟩
  exact (flush_writes_run_and_errors_iff_empty defaultConfig 8 _).2
    (by decide)

set_option maxRecDepth 10000 in
/-- Claim C8 as stated is false on the code: `_validate_key` compares
`len(key)` — the number of characters — against 1024, not the UTF-8 byte
length.  A key of 257 copies of a four-byte character occupies 1028 UTF-8
bytes, exceeding the claimed 1024-byte limit, yet is accepted. -/
theorem key_validation_counts_characters_not_bytes :
    validateKey (PyObj.pyStr (String.mk (List.replicate 257 '𝕏'))) =
      Except.ok (String.mk (List.replicate 257 '𝕏')) ∧
    1024 < (String.mk (List.replicate 257 '𝕏')).utf8ByteSize := by
  constructor
  · rfl
  · decide

/-- Claim C8 (amended): `put` and `delete` reject — with a `TypeError` or
`ValueError` raised before any WAL or memtable mutation — a non-string
key or value, an empty key, a key longer than 1024 characters, and a
value longer than 1 048 576 characters (Python's `len`, not UTF-8 bytes);
a 1024-character key and a 1 048 576-character value are accepted, and
the operations succeed exactly when validation passes and the store is
open. -/
theorem put_delete_validation (k v : PyObj) (cfg : Config) (fuel : Nat)
    (st : LSMKVStore) (now : Int) :
    ((∃ s, validateKey k = Except.ok s) ↔
      ∃ s, k = PyObj.pyStr s ∧ s ≠ "" ∧ s.length ≤ 1024) ∧
    ((∃ s, validateValue v = Except.ok s) ↔
      ∃ s, v = PyObj.pyStr s ∧ s.length ≤ 1048576) ∧
    (∀ m, validateKey k ≠ Except.error (KVError.runtimeError m)) ∧
    (∀ m, validateValue v ≠ Except.error (KVError.runtimeError m)) ∧
    ((kvPut cfg fuel st now k v).isOk =
      ((validateKey k).isOk && (validateValue v).isOk && !st.closed)) ∧
    ((kvDelete cfg fuel st now k).isOk =
      ((validateKey k).isOk && !st.closed)) := by
  refine ⟨?_, ?_, ?_, ?_, ?_, ?_⟩
  · cases k with
    | pyOther => simp [validateKey]
    | pyStr s =>
      by_cases h0 : s.length = 0
      · have hs : s = "" := by
          cases s with
          | mk data =>
            cases data with
            | nil => rfl
            | cons c cs => simp [String.length] at h0
        simp [validateKey, h0, hs]
      · by_cases h1 : 1024 < s.length
        · simp [validateKey, h0, h1]
        · simp only [validateKey, h0, if_false, h1]
          constructor
          · intro _
            refine ⟨s, rfl, ?_, not_lt.mp h1⟩
            intro hc
            rw [hc] at h0
            exact h0 rfl
          · intro _
            exact ⟨s, rfl⟩
  · cases v with
    | pyOther => simp [validateValue]
    | pyStr s =>
      by_cases h1 : 1048576 < s.length
      · simp [validateValue, h1]
      · simp only [validateValue, h1, if_false]
        constructor
        · intro _
          exact ⟨s, rfl, not_lt.mp h1⟩
        · intro _
          exact ⟨s, rfl⟩
  · intro m
    cases k with
    | pyOther => simp [validateKey]
    | pyStr s =>
      simp only [validateKey]
      split
      · simp
      · split <;> simp
  · intro m
    cases v with
    | pyOther => simp [validateValue]
    | pyStr s =>
      simp only [validateValue]
      split <;> simp
  · cases hk : validateKey k with
    | error e =>
      unfold kvPut
      rw [hk]
      simp [Except.isOk, Except.toBool]
    | ok ks =>
      cases hv : validateValue v with
      | error e =>
        unfold kvPut
        rw [hk, hv]
        simp [Except.isOk, Except.toBool]
      | ok vs =>
        unfold kvPut
        rw [hk, hv]
        cases hc : st.closed with
        | true => simp [Except.isOk, Except.toBool]
        | false =>
          simp only [Bool.false_eq_true, if_false, Bool.not_false,
            Bool.and_true]
          cases hmp : (st.mgr.putEntry ⟨ks, some vs, (getTimestamp
              st.last_timestamp now).1, false⟩).2 <;>
            simp [Except.isOk, Except.toBool, hmp]
  · cases hk : validateKey k with
    | error e =>
      unfold kvDelete
      rw [hk]
      simp [Except.isOk, Except.toBool]
    | ok ks =>
      unfold kvDelete
      rw [hk]
      cases hc : st.closed with
      | true => simp [Except.isOk, Except.toBool]
      | false =>
        simp only [Bool.false_eq_true, if_false, Bool.not_false,
          Bool.and_true]
        cases hmp : (st.mgr.deleteEntry ⟨ks, none, (getTimestamp
            st.last_timestamp now).1, true⟩).2 <;>
          simp [Except.isOk, Except.toBool, hmp]

end LSMKV
